import Mathlib

/-!
Verification development for the `toolkit` repository.

Part 1 embeds the `h2` histogram codec (`Encoding.Encode64` / `Encoding.Decode64`,
two versions present in the source).  Machine integers (`uint64`) are modelled as
`Nat` together with explicit wrap-around operations (`% 2^64`) at every point where
the Go semantics differ from unbounded natural-number arithmetic: left shifts and
additions may wrap, and subtraction wraps around instead of truncating at zero.
Right shifts by large counts yield 0 in Go exactly as `Nat.shiftRight` does.

Part 2 embeds the subject-based publish/subscribe core (sublist) and the `pubsub`
wrapper.  The sublist implementation itself is not part of the source tree (only
its README, its `Subscription` declaration and its callers are), so those
definitions are modelled from the specification, as indicated by their doc
comments.  The `pubsub` wrapper (`Pub`, the cancel function returned by `sub`)
is embedded from `src/pubsub/pubsub.go`.
-/

namespace Toolkit

/-- `2^64`, the modulus of Go's `uint64` arithmetic. -/
def U64 : Nat := 2 ^ 64

/-- Truncation to 64 bits, applied wherever a Go `uint64` operation can exceed 64 bits. -/
def w64 (n : Nat) : Nat := n % U64

/-- Go `uint64` addition (wraps modulo `2^64`). -/
def gadd (x y : Nat) : Nat := w64 (x + y)

/-- Go `uint64` subtraction (wraps modulo `2^64`); the first operand is assumed reduced. -/
def gsub (x y : Nat) : Nat := w64 (x + U64 - w64 y)

/-- Go `uint64` left shift (wraps modulo `2^64`; shift counts `≥ 64` shift everything out). -/
def gshl (x s : Nat) : Nat := w64 (x <<< s)

/-- Go `uint64` right shift.  `Nat.shiftRight` already yields 0 for counts `≥ 64`. -/
def gshr (x s : Nat) : Nat := x >>> s

/-- Fueled bit-length: `len64Aux fuel n` is the number of binary digits of `n`,
computed by structural recursion on the fuel (exact for `n < 2^fuel`). -/
def len64Aux : Nat → Nat → Nat
  | 0, _ => 0
  | fuel + 1, n => if n = 0 then 0 else len64Aux fuel (n / 2) + 1

/-- `bits.Len64`: the number of bits needed to represent `n`; 0 for `n = 0`.
This agrees with `Nat.size` on every `uint64` value (proved below). -/
def len64 (n : Nat) : Nat := len64Aux 64 n

/-- The h2 histogram encoding parameters (`type Encoding struct { A, B uint64 }`). -/
structure Encoding where
  A : Nat
  B : Nat
deriving DecidableEq, Repr

/-- First version of `Encoding.Encode64` (part_001 lines 12–19). -/
def Encoding.Encode64 (e : Encoding) (value : Nat) : Nat :=
  let a := e.A
  let b := e.B
  let c := gadd (gadd e.A e.B) 1
  if value < gshl 1 c then
    gshr value a
  else
    let logSegment := gsub (len64 value) 1
    gadd (gshr value (gsub logSegment b)) (gshl (gadd (gsub logSegment c) 1) b)

/-- First version of `Encoding.Decode64` (part_001 lines 22–37); returns `(lower, binWidth)`. -/
def Encoding.Decode64 (e : Encoding) (index : Nat) : Nat × Nat :=
  let a := e.A
  let b := e.B
  let c := gadd (gadd e.A e.B) 1
  let binsBelowCutoff := gshl 1 (gsub c a)
  if index < binsBelowCutoff then
    (gshl index a, gshl 1 a)
  else
    let logSegment := gadd c (gshr (gsub index binsBelowCutoff) b)
    let offset := index &&& gsub (gshl 1 b) 1
    (gadd (gshl 1 logSegment) (gshl offset (gsub logSegment b)), gshl 1 (gsub logSegment b))

/-- Second version of `Encoding.Encode64` (part_001 lines 47–55). -/
def Encode64v2 (e : Encoding) (value : Nat) : Nat :=
  let a := e.A
  let b := e.B
  let c := gadd (gadd a b) 1
  if value < gshl 1 c then
    gshr value a
  else
    let seg := len64 value
    gadd (gshr value (gadd (gsub seg b) 1)) (gshl (gsub seg c) b)

/-- Second version of `Encoding.Decode64` (part_001 lines 57–73); returns `(lower, binWidth)`. -/
def Decode64v2 (e : Encoding) (index : Nat) : Nat × Nat :=
  let a := e.A
  let b := e.B
  let c := gadd (gadd a b) 1
  let binsBelowCutoff := gshl 1 (gsub c a)
  if index < binsBelowCutoff then
    (gshl index a, gsub (gshl (gadd index 1) a) 1)
  else
    let seg := gadd c (gshr (gsub index binsBelowCutoff) b)
    let offset := index &&& gsub (gshl 1 b) 1
    (gadd (gshl 1 seg) (gshl offset (gsub seg b)), gsub (gshl 1 (gsub seg b)) 1)

/-! ## Token codec

Modelled from the spec: the sublist implementation file is not in the source tree
(only its README and callers are), so the token codec follows spec §4.1: split the
subject on `.`, fail with `MalformedSubject` on an empty subject or a zero-length
token; published subjects additionally reject `*`/`>` tokens; patterns allow `>`
only as the final token. -/

/-- Split a character list at every `'.'`; always returns at least one (possibly
empty) token, e.g. `""` ↦ `[""]`, `"a.b"` ↦ `["a","b"]`. -/
def splitDots : List Char → List (List Char)
  | [] => [[]]
  | c :: cs =>
    if c = '.' then [] :: splitDots cs
    else
      match splitDots cs with
      | [] => [[c]]
      | t :: ts => (c :: t) :: ts

/-- Modelled from the spec: `tokenize(subject) -> ordered sequence of tokens`,
the dot-separated tokens of a subject string. -/
def tokenize (s : String) : List String := (splitDots s.data).map (fun l => String.mk l)

/-- Join token character lists with `'.'`; the inverse of `splitDots`. -/
def joinDots : List (List Char) → List Char
  | [] => []
  | [t] => t
  | t :: ts => t ++ '.' :: joinDots ts

/-- Rebuild a subject string from its tokens (used to state that `tokenize`
returns the dot-separated decomposition of its input). -/
def joinTokens (ts : List String) : String := String.mk (joinDots (ts.map String.data))

/-- Modelled from the spec: a published subject's tokens are valid when there is at
least one token, none is empty, and none is a `*` or `>` wildcard token. -/
def validPubTokens : List String → Bool
  | [] => false
  | ts => ts.all fun t => !(t == "" || t == "*" || t == ">")

/-- Modelled from the spec: a pattern's tokens are valid when there is at least one
token, none is empty, and `>` appears only as the final token. -/
def validPatTokens : List String → Bool
  | [] => false
  | [t] => !(t == "")
  | t :: rest => !(t == "" || t == ">") && validPatTokens rest

/-- `IsValidPublishSubject` (spec §6): pure validity predicate for published subjects. -/
def isValidPublishSubject (s : String) : Bool := validPubTokens (tokenize s)

/-- `IsValidPattern` (spec §6): pure validity predicate for subscription patterns. -/
def isValidPattern (s : String) : Bool := validPatTokens (tokenize s)

/-- The sublist error kinds (spec §7): `MalformedSubject` and `NotFound`. -/
inductive SublistErr
  | malformedSubject
  | notFound
deriving DecidableEq, Repr

/-- Modelled from the spec: tokenization of a published subject, failing with
`MalformedSubject` on malformed input (spec §4.1). -/
def tokenizePub (s : String) : Except SublistErr (List String) :=
  if validPubTokens (tokenize s) then .ok (tokenize s) else .error .malformedSubject

/-- Modelled from the spec: tokenization of a pattern, failing with
`MalformedSubject` on malformed input (spec §4.1). -/
def tokenizePattern (s : String) : Except SublistErr (List String) :=
  if validPatTokens (tokenize s) then .ok (tokenize s) else .error .malformedSubject

/-! ## Subscriptions and the trie store -/

/-- `sublist.Subscription` (part_002): the payload handle `Value any` is modelled
as an opaque `Nat` handle; `Subject`/`Queue` byte strings as `String`s, with
`none` for a nil queue. -/
structure Subscription where
  value : Nat
  subject : String
  queue : Option String
  file : String
  line : Nat
  funcName : String
  id : String
  debug : Bool
deriving DecidableEq, Repr

/-- Modelled from the spec: identity for removal purposes is pattern + queue +
payload-handle equality, not the whole record (spec §3). -/
def subKeyEq (a b : Subscription) : Bool :=
  a.subject == b.subject && a.queue == b.queue && a.value == b.value

/-- Association-list lookup by key (first match), the model for Go map indexing. -/
def assocLookup {β : Type} (k : String) : List (String × β) → Option β
  | [] => none
  | (k', v) :: rest => if k' = k then some v else assocLookup k rest

/-- Association-list update: apply `f` to the existing entry in place, or append a
fresh entry `(k, f none)` at the end (the model for Go map insertion, creating
lazily on first member). -/
def assocUpdate {β : Type} (k : String) (f : Option β → β) :
    List (String × β) → List (String × β)
  | [] => [(k, f none)]
  | (k', v) :: rest =>
    if k' = k then (k', f (some v)) :: rest else (k', v) :: assocUpdate k f rest

/-- Association-list replacement of an existing entry's value, in place. -/
def assocReplace {β : Type} (k : String) (v : β) : List (String × β) → List (String × β)
  | [] => []
  | (k', v') :: rest =>
    if k' = k then (k', v) :: rest else (k', v') :: assocReplace k v rest

/-- Association-list deletion of the first entry with the given key. -/
def assocDelete {β : Type} (k : String) : List (String × β) → List (String × β)
  | [] => []
  | (k', v') :: rest => if k' = k then rest else (k', v') :: assocDelete k rest

/-- Remove the first subscription equal (in the pattern/queue/payload sense) to `s`. -/
def eraseFirstKey (s : Subscription) : List Subscription → List Subscription
  | [] => []
  | x :: xs => if subKeyEq s x then xs else x :: eraseFirstKey s xs

/-- Does the list contain a subscription equal (pattern/queue/payload) to `s`? -/
def containsKeyEq (s : Subscription) (l : List Subscription) : Bool := l.any (subKeyEq s)

/-- Number of subscriptions in the list equal (pattern/queue/payload) to `s`. -/
def countKeyEq (s : Subscription) (l : List Subscription) : Nat :=
  l.countP fun x => subKeyEq s x

/-- Modelled from the spec: the terminal record attached to a trie node — a plain
subscription list and a queue-name-keyed mapping of group lists (spec §3). -/
structure Terminal where
  psubs : List Subscription
  qsubs : List (String × List Subscription)
deriving DecidableEq, Repr

/-- The empty terminal record. -/
def emptyTerminal : Terminal := ⟨[], []⟩

/-- A terminal record with no subscriptions at all. -/
def termIsEmpty (T : Terminal) : Bool := T.psubs.isEmpty && T.qsubs.isEmpty

/-- Modelled from the spec: at the terminal node, append the subscription either to
the plain list (no queue) or to the queue-group list under the queue's name,
creating the group's list lazily on first member (spec §4.2). -/
def termAdd (s : Subscription) (T : Terminal) : Terminal :=
  match s.queue with
  | none => { T with psubs := T.psubs ++ [s] }
  | some q => { T with qsubs := assocUpdate q (fun o => o.getD [] ++ [s]) T.qsubs }

/-- Modelled from the spec: remove the first subscription equal to the target from
the appropriate list; delete a queue group whose list becomes empty; `none` when
no matching subscription exists (spec §4.2). -/
def termRemove (s : Subscription) (T : Terminal) : Option Terminal :=
  match s.queue with
  | none =>
    if containsKeyEq s T.psubs then some { T with psubs := eraseFirstKey s T.psubs }
    else none
  | some q =>
    match assocLookup q T.qsubs with
    | none => none
    | some l =>
      if containsKeyEq s l then
        let l' := eraseFirstKey s l
        some { T with
               qsubs := if l'.isEmpty then assocDelete q T.qsubs
                        else assocReplace q l' T.qsubs }
      else none

/-- Modelled from the spec: a trie node holds a literal-token child map, an
optional `*`-child, an optional `>`-terminal record, and the terminal subscription
lists for patterns ending exactly here (spec §3). -/
inductive Node where
  | mk (children : List (String × Node)) (star : Option Node)
       (gt : Option Terminal) (term : Terminal)

/-- The literal-token child map of a node. -/
def Node.children : Node → List (String × Node)
  | .mk c _ _ _ => c

/-- The `*`-child of a node. -/
def Node.star : Node → Option Node
  | .mk _ s _ _ => s

/-- The `>`-terminal record of a node. -/
def Node.gt : Node → Option Terminal
  | .mk _ _ g _ => g

/-- The terminal subscription lists of a node. -/
def Node.term : Node → Terminal
  | .mk _ _ _ t => t

/-- The empty trie node. -/
def emptyNode : Node := .mk [] none none emptyTerminal

/-- Modelled from the spec: a node with no subscriptions, no children and no
`*`-child is pruned on removal (spec §4.2). -/
def nodeIsEmpty (n : Node) : Bool :=
  n.children.isEmpty && n.star.isNone && n.gt.isNone && termIsEmpty n.term

/-- Modelled from the spec: Insert descends one token at a time, creating literal
or `*` children as needed; a final `>` token attaches the subscription to the
node's `>`-terminal record; at the end of the pattern the subscription is appended
to the terminal lists (spec §4.2). -/
def insertAt : List String → Subscription → Node → Node
  | [], s, .mk cs st g tm => .mk cs st g (termAdd s tm)
  | t :: rest, s, .mk cs st g tm =>
    if t = ">" && rest.isEmpty then
      .mk cs st (some (termAdd s (g.getD emptyTerminal))) tm
    else if t = "*" then
      .mk cs (some (insertAt rest s (st.getD emptyNode))) g tm
    else
      .mk (assocUpdate t (fun o => insertAt rest s (o.getD emptyNode)) cs) st g tm

/-- Modelled from the spec: Remove walks the identical path; on reaching the
terminal it removes the first equal subscription; a node left with no
subscriptions, no children and no `*`-child is pruned, and the prune propagates
upward; `none` when no matching subscription exists on the path (spec §4.2). -/
def removeAt : List String → Subscription → Node → Option Node
  | [], s, .mk cs st g tm => (termRemove s tm).map fun tm' => .mk cs st g tm'
  | t :: rest, s, .mk cs st g tm =>
    if t = ">" && rest.isEmpty then
      match g with
      | none => none
      | some T =>
        (termRemove s T).map fun T' =>
          .mk cs st (if termIsEmpty T' then none else some T') tm
    else if t = "*" then
      match st with
      | none => none
      | some c =>
        (removeAt rest s c).map fun c' =>
          .mk cs (if nodeIsEmpty c' then none else some c') g tm
    else
      match assocLookup t cs with
      | none => none
      | some c =>
        (removeAt rest s c).map fun c' =>
          .mk (if nodeIsEmpty c' then assocDelete t cs else assocReplace t c' cs) st g tm

/-! ## Match engine -/

/-- Modelled from the spec: a Match Result — plain subscriptions plus a mapping
from queue-group name to the group's subscriber list (spec §3). -/
structure SublistResult where
  psubs : List Subscription
  qsubs : List (String × List Subscription)
deriving DecidableEq, Repr

/-- The empty match result. -/
def emptyResult : SublistResult := ⟨[], []⟩

/-- Merge one queue group into a result's group mapping, preserving insertion
order within a group. -/
def qAdd (q : String) (l : List Subscription)
    (acc : List (String × List Subscription)) : List (String × List Subscription) :=
  assocUpdate q (fun o => o.getD [] ++ l) acc

/-- Add a terminal record's subscriptions to a match result. -/
def addTerminal (T : Terminal) (r : SublistResult) : SublistResult :=
  ⟨r.psubs ++ T.psubs, T.qsubs.foldl (fun acc e => qAdd e.1 e.2 acc) r.qsubs⟩

/-- Union of two match results (the second's groups merged into the first's). -/
def mergeResult (r r' : SublistResult) : SublistResult :=
  ⟨r.psubs ++ r'.psubs, r'.qsubs.foldl (fun acc e => qAdd e.1 e.2 acc) r.qsubs⟩

/-- Modelled from the spec: the match traversal for a literal subject — when tokens
remain, a `>`-terminal at this node matches unconditionally, and the traversal
branches into both the literal child for the current token and the `*`-child; when
the subject is exhausted, the node's own terminal lists are added (spec §4.3). -/
def matchAt : List String → Node → SublistResult
  | [], n => addTerminal n.term emptyResult
  | t :: rest, n =>
    let r0 := match n.gt with
      | some T => addTerminal T emptyResult
      | none => emptyResult
    let r1 := match assocLookup t n.children with
      | some c => mergeResult r0 (matchAt rest c)
      | none => r0
    match n.star with
    | some c => mergeResult r1 (matchAt rest c)
    | none => r1

/-- The spec's declarative matching relation (spec §8): the pattern equals the
subject token-for-token, with `*` standing for exactly one token, or it ends in
`>` matching one or more trailing tokens. -/
def specMatch : List String → List String → Bool
  | [], [] => true
  | _ :: _, [] => false
  | [], _ :: _ => false
  | p :: ps, t :: ts => (p == ">" && ps.isEmpty) || ((p == t || p == "*") && specMatch ps ts)

/-! ## Node addressing (for structural-equivalence statements) -/

/-- One edge out of a trie node: a literal token edge, the `*` edge, or the
synthetic `>`-terminal. -/
inductive Edge
  | lit (t : String)
  | star
  | fwc
deriving DecidableEq, Repr

/-- Does the trie contain a node at this edge path?  The `>`-terminal counts as a
childless terminal node. -/
def hasNode : Node → List Edge → Bool
  | _, [] => true
  | n, .lit t :: p =>
    match assocLookup t n.children with
    | some c => hasNode c p
    | none => false
  | n, .star :: p =>
    match n.star with
    | some c => hasNode c p
    | none => false
  | n, .fwc :: p => n.gt.isSome && p.isEmpty

/-- The node reached by a path of literal/`*` edges. -/
def nodeAt : Node → List Edge → Option Node
  | n, [] => some n
  | n, .lit t :: p =>
    match assocLookup t n.children with
    | some c => nodeAt c p
    | none => none
  | n, .star :: p =>
    match n.star with
    | some c => nodeAt c p
    | none => none
  | _, .fwc :: _ => none

/-- Shallow well-formedness of one node: queue-group entries are nonempty and a
present `>`-terminal record is nonempty (groups and records are deleted, not left
empty, by Remove). -/
def shallowWF (n : Node) : Bool :=
  n.term.qsubs.all (fun e => !e.2.isEmpty) &&
  (match n.gt with
   | some T => !termIsEmpty T && T.qsubs.all (fun e => !e.2.isEmpty)
   | none => true)

/-- Trie well-formedness: every node is shallowly well-formed, and every non-root
node is nonempty (maintained by Remove's pruning). -/
def trieWF (t : Node) : Prop :=
  ∀ addr n', nodeAt t addr = some n' →
    shallowWF n' = true ∧ (addr ≠ [] → nodeIsEmpty n' = false)

/-- Every map in the trie (literal children, queue groups of terminal records)
has distinct keys — automatic for a Go map, an invariant of the
association-list model. -/
def mapsNodup (t : Node) : Prop :=
  ∀ addr n', nodeAt t addr = some n' →
    (n'.children.map Prod.fst).Nodup ∧ (n'.term.qsubs.map Prod.fst).Nodup ∧
    (match n'.gt with
     | some T => (T.qsubs.map Prod.fst).Nodup
     | none => True)

/-- Count of subscriptions equal (pattern/queue/payload) to `s` registered at
`s`'s own path and list in the trie. -/
def termCount (s : Subscription) (T : Terminal) : Nat :=
  match s.queue with
  | none => countKeyEq s T.psubs
  | some q => countKeyEq s ((assocLookup q T.qsubs).getD [])

/-- Walk pattern tokens to the terminal a subscription would live at and count the
equal subscriptions there (0 when the path is absent). -/
def countAt : List String → Subscription → Node → Nat
  | [], s, n => termCount s n.term
  | t :: rest, s, n =>
    if t = ">" && rest.isEmpty then
      match n.gt with
      | some T => termCount s T
      | none => 0
    else if t = "*" then
      match n.star with
      | some c => countAt rest s c
      | none => 0
    else
      match assocLookup t n.children with
      | some c => countAt rest s c
      | none => 0

/-! ## Front-end facade: cache + public operations -/

/-- `slCacheMax` (part_003): bound on the frontend cache entry count. -/
def slCacheMax : Nat := 1024

/-- `slCacheSweep` (part_003): the count the cache is drained to by a sweep. -/
def slCacheSweep : Nat := 256

/-- `plistMin` (part_003): lower bound to create a fast plist for Match (a
read-mostly optimization the spec allows an implementation to omit; this model
omits it, as §4.4 permits, so the constant is recorded but unused). -/
def plistMin : Nat := 256

/-- Modelled from the spec: the sublist facade state — the trie root, the
subject-keyed result cache, and the generation counter bumped on every mutation
(spec §2, §4.4, §5). -/
structure Sublist where
  root : Node
  cache : List (String × SublistResult)
  genid : Nat

/-- `NewSublistWithCache`: a fresh sublist with an empty trie and cache. -/
def newSublistWithCache : Sublist := ⟨emptyNode, [], 0⟩

/-- Modelled from the spec: `Insert` validates the pattern, mutates the trie, drops
the cache and bumps the generation counter (spec §6, §5). -/
def slInsert (s : Subscription) (sl : Sublist) : Except SublistErr Sublist :=
  match tokenizePattern s.subject with
  | .error e => .error e
  | .ok toks => .ok ⟨insertAt toks s sl.root, [], sl.genid + 1⟩

/-- Modelled from the spec: `Remove` validates the pattern, walks the pattern path
removing the first equal subscription (failing with `NotFound` when absent), drops
the cache and bumps the generation counter (spec §4.2, §6, §5). -/
def slRemove (s : Subscription) (sl : Sublist) : Except SublistErr Sublist :=
  match tokenizePattern s.subject with
  | .error e => .error e
  | .ok toks =>
    match removeAt toks s sl.root with
    | none => .error .notFound
    | some root' => .ok ⟨root', [], sl.genid + 1⟩

/-- Modelled from the spec: `Match` returns an empty result on a malformed
published subject; otherwise it probes the cache by exact subject string and on a
hit returns the stored result; on a miss it runs the traversal, stores the result,
and if the entry count exceeds the high-water mark prunes down to the low-water
mark (spec §4.4, §6). -/
def slMatch (subject : String) (sl : Sublist) : SublistResult × Sublist :=
  if isValidPublishSubject subject then
    match assocLookup subject sl.cache with
    | some r => (r, sl)
    | none =>
      let r := matchAt (tokenize subject) sl.root
      let cache1 := sl.cache ++ [(subject, r)]
      let cache2 := if slCacheMax < cache1.length then cache1.take slCacheSweep else cache1
      (r, ⟨sl.root, cache2, sl.genid⟩)
  else (emptyResult, sl)

/-- One public operation on the sublist facade. -/
inductive SlOp
  | ins (s : Subscription)
  | rem (s : Subscription)
  | mat (subject : String)

/-- Apply one operation (failed Insert/Remove calls leave the state unchanged). -/
def applyOp (sl : Sublist) : SlOp → Sublist
  | .ins s =>
    match slInsert s sl with
    | .ok sl' => sl'
    | .error _ => sl
  | .rem s =>
    match slRemove s sl with
    | .ok sl' => sl'
    | .error _ => sl
  | .mat subj => (slMatch subj sl).2

/-- The sublist state after a sequence of operations on a fresh sublist. -/
def applyOps (ops : List SlOp) : Sublist := ops.foldl applyOp newSublistWithCache

/-- Cache coherence: every cache entry stores exactly the traversal result for its
subject against the current trie. -/
def cacheWF (sl : Sublist) : Prop :=
  ∀ e ∈ sl.cache, e.2 = matchAt (tokenize e.1) sl.root

/-! ## pubsub wrapper (src/pubsub/pubsub.go) -/

/-- Count of subscriptions equal to `s` (pattern/queue/payload) registered in the
sublist. -/
def countSub (s : Subscription) (sl : Sublist) : Nat :=
  countAt (tokenize s.subject) s sl.root

/-- One run of the `CancelFunc` returned by `sub` (pubsub.go lines 63–69): call
`Remove`; a `NotFound` error is ignored (cancel functions must be idempotent); any
other error panics.  Returns the resulting state and whether it panicked. -/
def cancelRun (s : Subscription) (sl : Sublist) : Sublist × Bool :=
  match slRemove s sl with
  | .ok sl' => (sl', false)
  | .error .notFound => (sl, false)
  | .error .malformedSubject => (sl, true)

/-- Placeholder subscription used only for out-of-range indexing (the Go code
panics there; the theorems assume in-range choices as `rand.IntN` guarantees). -/
def dummySub : Subscription := ⟨0, "", none, "", 0, "", "", false⟩

/-- Select one member of a queue group at the chosen index
(`subs[rand.IntN(len(subs))]`, pubsub.go line 140). -/
def pickQ (g : String × List Subscription) (c : Nat) : Subscription :=
  g.2.getD c dummySub

/-- The sequence of subscriptions `Pub` invokes (pubsub.go lines 119–143): every
plain subscription of the match result in order, then one member per queue group,
the member chosen by the random oracle `choices` (one index per group). -/
def pubTrace (mr : SublistResult) (choices : List Nat) : List Subscription :=
  mr.psubs ++ List.zipWith pickQ mr.qsubs choices

/-! ## Concrete example data (spec §8 examples) -/

/-- Example subscription A on `sensors.temperature.room1`. -/
def exSubA : Subscription := ⟨1, "sensors.temperature.room1", none, "", 0, "", "A", false⟩

/-- Example subscription B on `sensors.temperature.*`. -/
def exSubB : Subscription := ⟨2, "sensors.temperature.*", none, "", 0, "", "B", false⟩

/-- Example subscription C on `sensors.>`. -/
def exSubC : Subscription := ⟨3, "sensors.>", none, "", 0, "", "C", false⟩

/-- Example subscription D on `tensors.>`. -/
def exSubD : Subscription := ⟨4, "tensors.>", none, "", 0, "", "D", false⟩

/-- The example trie: A, B, C, D inserted in order into a fresh sublist. -/
def exSublist : Sublist :=
  applyOps [.ins exSubA, .ins exSubB, .ins exSubC, .ins exSubD]

/-- Example queue subscription QA on `work.>` in group `workers`. -/
def exSubQA : Subscription := ⟨10, "work.>", some "workers", "", 0, "", "QA", false⟩

/-- Example queue subscription QB on `work.>` in group `workers`. -/
def exSubQB : Subscription := ⟨11, "work.>", some "workers", "", 0, "", "QB", false⟩

/-- The queue-example trie: QA and QB in group `workers`, plus plain C. -/
def exQSublist : Sublist :=
  applyOps [.ins exSubQA, .ins exSubQB, .ins exSubC]

/-! ## Association-list lemmas -/

theorem subKeyEq_refl (s : Subscription) : subKeyEq s s = true := by
  simp [subKeyEq]

theorem assocLookup_update_self {β : Type} (k : String) (f : Option β → β)
    (l : List (String × β)) :
    assocLookup k (assocUpdate k f l) = some (f (assocLookup k l)) := by
  induction l with
  | nil => simp [assocUpdate, assocLookup]
  | cons e rest ih =>
    obtain ⟨k', v⟩ := e
    by_cases h : k' = k
    · simp [assocUpdate, assocLookup, h]
    · simp [assocUpdate, assocLookup, h, ih]

theorem assocLookup_update_other {β : Type} {k k' : String} (hne : k' ≠ k)
    (f : Option β → β) (l : List (String × β)) :
    assocLookup k' (assocUpdate k f l) = assocLookup k' l := by
  induction l with
  | nil => simp [assocUpdate, assocLookup, Ne.symm hne]
  | cons e rest ih =>
    obtain ⟨k'', v⟩ := e
    by_cases h : k'' = k
    · subst h
      simp [assocUpdate, assocLookup, Ne.symm hne]
    · simp [assocUpdate, assocLookup, h, ih]

theorem assocLookup_replace_self {β : Type} (k : String) (v : β) (l : List (String × β)) :
    assocLookup k (assocReplace k v l) = (assocLookup k l).map fun _ => v := by
  induction l with
  | nil => simp [assocReplace, assocLookup]
  | cons e rest ih =>
    obtain ⟨k', v'⟩ := e
    by_cases h : k' = k
    · simp [assocReplace, assocLookup, h]
    · simp [assocReplace, assocLookup, h, ih]

theorem assocLookup_replace_other {β : Type} {k k' : String} (hne : k' ≠ k)
    (v : β) (l : List (String × β)) :
    assocLookup k' (assocReplace k v l) = assocLookup k' l := by
  induction l with
  | nil => simp [assocReplace]
  | cons e rest ih =>
    obtain ⟨k'', v'⟩ := e
    by_cases h : k'' = k
    · subst h
      simp [assocReplace, assocLookup, Ne.symm hne]
    · simp [assocReplace, assocLookup, h, ih]

theorem assocUpdate_of_lookup_none {β : Type} {k : String} {l : List (String × β)}
    (h : assocLookup k l = none) (f : Option β → β) :
    assocUpdate k f l = l ++ [(k, f none)] := by
  induction l with
  | nil => simp [assocUpdate]
  | cons e rest ih =>
    obtain ⟨k', v⟩ := e
    by_cases hk : k' = k
    · simp [assocLookup, hk] at h
    · simp [assocLookup, hk] at h
      simp [assocUpdate, hk, ih h]

theorem assocDelete_append_self {β : Type} {k : String} {l : List (String × β)}
    (h : assocLookup k l = none) (v : β) :
    assocDelete k (l ++ [(k, v)]) = l := by
  induction l with
  | nil => simp [assocDelete]
  | cons e rest ih =>
    obtain ⟨k', v'⟩ := e
    by_cases hk : k' = k
    · simp [assocLookup, hk] at h
    · simp [assocLookup, hk] at h
      simp [assocDelete, hk, ih h]

theorem assocLookup_none_iff {β : Type} {k : String} {l : List (String × β)} :
    assocLookup k l = none ↔ k ∉ l.map Prod.fst := by
  induction l with
  | nil => simp [assocLookup]
  | cons e rest ih =>
    obtain ⟨k', v⟩ := e
    by_cases hk : k' = k
    · simp [assocLookup, hk]
    · simp [assocLookup, hk, ih, Ne.symm hk]

theorem assocLookup_delete_other {β : Type} {k k' : String} (hne : k' ≠ k)
    (l : List (String × β)) :
    assocLookup k' (assocDelete k l) = assocLookup k' l := by
  induction l with
  | nil => simp [assocDelete]
  | cons e rest ih =>
    obtain ⟨k'', v⟩ := e
    by_cases hk : k'' = k
    · subst hk
      simp [assocDelete, assocLookup, Ne.symm hne]
    · simp [assocDelete, assocLookup, hk, ih]

theorem assocLookup_delete_self {β : Type} {k : String} {l : List (String × β)}
    (h : (l.map Prod.fst).Nodup) :
    assocLookup k (assocDelete k l) = none := by
  induction l with
  | nil => simp [assocDelete, assocLookup]
  | cons e rest ih =>
    obtain ⟨k', v⟩ := e
    simp only [List.map_cons, List.nodup_cons] at h
    by_cases hk : k' = k
    · subst hk
      simp only [assocDelete, if_pos rfl]
      exact assocLookup_none_iff.mpr h.1
    · simp [assocDelete, assocLookup, hk, ih h.2]

theorem length_assocUpdate_of_lookup_some {β : Type} {k : String} {l : List (String × β)}
    {v0 : β} (h : assocLookup k l = some v0) (f : Option β → β) :
    (assocUpdate k f l).length = l.length := by
  induction l with
  | nil => simp [assocLookup] at h
  | cons e rest ih =>
    obtain ⟨k', v⟩ := e
    by_cases hk : k' = k
    · simp [assocUpdate, hk]
    · simp [assocLookup, hk] at h
      simp [assocUpdate, hk, ih h]

theorem length_assocReplace {β : Type} (k : String) (v : β) (l : List (String × β)) :
    (assocReplace k v l).length = l.length := by
  induction l with
  | nil => simp [assocReplace]
  | cons e rest ih =>
    obtain ⟨k', v'⟩ := e
    by_cases hk : k' = k
    · simp [assocReplace, hk]
    · simp [assocReplace, hk, ih]

theorem assocLookup_some_mem {β : Type} {k : String} {l : List (String × β)} {v : β}
    (h : assocLookup k l = some v) : (k, v) ∈ l := by
  induction l with
  | nil => simp [assocLookup] at h
  | cons e rest ih =>
    obtain ⟨k', v'⟩ := e
    by_cases hk : k' = k
    · subst hk
      simp [assocLookup] at h
      simp [h]
    · simp [assocLookup, hk] at h
      exact List.mem_cons_of_mem _ (ih h)

theorem keys_assocUpdate_of_lookup_some {β : Type} {k : String} {l : List (String × β)}
    {v0 : β} (h : assocLookup k l = some v0) (f : Option β → β) :
    (assocUpdate k f l).map Prod.fst = l.map Prod.fst := by
  induction l with
  | nil => simp [assocLookup] at h
  | cons e rest ih =>
    obtain ⟨k', v⟩ := e
    by_cases hk : k' = k
    · simp [assocUpdate, hk]
    · simp [assocLookup, hk] at h
      simp [assocUpdate, hk, ih h]

theorem keys_assocReplace {β : Type} (k : String) (v : β) (l : List (String × β)) :
    (assocReplace k v l).map Prod.fst = l.map Prod.fst := by
  induction l with
  | nil => simp [assocReplace]
  | cons e rest ih =>
    obtain ⟨k', v'⟩ := e
    by_cases hk : k' = k
    · simp [assocReplace, hk]
    · simp [assocReplace, hk, ih]

/-! ## eraseFirstKey / count lemmas -/

theorem containsKeyEq_append (s : Subscription) (l l' : List Subscription) :
    containsKeyEq s (l ++ l') = (containsKeyEq s l || containsKeyEq s l') := by
  simp [containsKeyEq, List.any_append]

theorem countKeyEq_append (s : Subscription) (l l' : List Subscription) :
    countKeyEq s (l ++ l') = countKeyEq s l + countKeyEq s l' := by
  simp [countKeyEq, List.countP_append]

theorem containsKeyEq_iff_countPos (s : Subscription) (l : List Subscription) :
    containsKeyEq s l = true ↔ 0 < countKeyEq s l := by
  induction l with
  | nil => simp [containsKeyEq, countKeyEq]
  | cons x xs ih =>
    by_cases h : subKeyEq s x = true
    · simp [containsKeyEq, countKeyEq, h, List.countP_cons]
    · simp only [Bool.not_eq_true] at h
      simp [containsKeyEq, countKeyEq, h, List.countP_cons, List.any_cons, ih]

theorem eraseFirstKey_append_keyEq (s x : Subscription) (hx : subKeyEq s x = true)
    (l : List Subscription) :
    eraseFirstKey s (l ++ [x]) =
      if containsKeyEq s l then eraseFirstKey s l ++ [x] else l := by
  induction l with
  | nil => simp [eraseFirstKey, containsKeyEq, hx]
  | cons y ys ih =>
    by_cases h : subKeyEq s y = true
    · simp [eraseFirstKey, containsKeyEq, h, List.any_cons]
    · have hcc : containsKeyEq s (y :: ys) = containsKeyEq s ys := by
        simp [containsKeyEq, List.any_cons, h]
      rw [List.cons_append]
      show eraseFirstKey s (y :: (ys ++ [x])) = _
      rw [show eraseFirstKey s (y :: (ys ++ [x]))
            = y :: eraseFirstKey s (ys ++ [x]) by simp [eraseFirstKey, h], ih, hcc]
      by_cases hc : containsKeyEq s ys = true
      · simp [hc, eraseFirstKey, h]
      · simp only [Bool.not_eq_true] at hc
        simp [hc]

theorem length_eraseFirstKey {s : Subscription} {l : List Subscription}
    (h : containsKeyEq s l = true) :
    (eraseFirstKey s l).length + 1 = l.length := by
  induction l with
  | nil => simp [containsKeyEq] at h
  | cons x xs ih =>
    by_cases hx : subKeyEq s x = true
    · simp [eraseFirstKey, hx]
    · simp only [Bool.not_eq_true] at hx
      simp only [containsKeyEq, List.any_cons, hx, Bool.false_or] at h
      simp [eraseFirstKey, hx, ih h]

theorem countKeyEq_eraseFirstKey {s : Subscription} {l : List Subscription}
    (h : containsKeyEq s l = true) :
    countKeyEq s (eraseFirstKey s l) + 1 = countKeyEq s l := by
  induction l with
  | nil => simp [containsKeyEq] at h
  | cons x xs ih =>
    by_cases hx : subKeyEq s x = true
    · simp [eraseFirstKey, hx, countKeyEq, List.countP_cons]
    · simp only [Bool.not_eq_true] at hx
      simp only [containsKeyEq, List.any_cons, hx, Bool.false_or] at h
      have := ih h
      simp only [countKeyEq] at this ⊢
      simp [eraseFirstKey, hx, List.countP_cons, this]

theorem isEmpty_eq_of_length_eq {α β : Type} {l1 : List α} {l2 : List β}
    (h : l1.length = l2.length) : l1.isEmpty = l2.isEmpty := by
  cases l1 <;> cases l2 <;> simp_all

/-! ## Terminal record lemmas -/

theorem containsKeyEq_self_append (s : Subscription) (l : List Subscription) :
    containsKeyEq s (l ++ [s]) = true := by
  simp [containsKeyEq_append, containsKeyEq, subKeyEq_refl]

theorem termRemove_termAdd_emptyT (s : Subscription) :
    termRemove s (termAdd s emptyTerminal) = some emptyTerminal := by
  cases hq : s.queue with
  | none =>
    simp [termAdd, termRemove, hq, emptyTerminal, containsKeyEq, subKeyEq_refl,
      eraseFirstKey]
  | some q =>
    simp [termAdd, termRemove, hq, emptyTerminal, assocUpdate, assocLookup,
      containsKeyEq, subKeyEq_refl, eraseFirstKey, assocDelete]

theorem termIsEmpty_congr {T T' : Terminal}
    (hp : T'.psubs.length = T.psubs.length) (hq : T'.qsubs.length = T.qsubs.length) :
    termIsEmpty T' = termIsEmpty T := by
  simp [termIsEmpty, isEmpty_eq_of_length_eq hp, isEmpty_eq_of_length_eq hq]

theorem termRemove_termAdd_of_groups (s : Subscription) (T : Terminal)
    (hg : T.qsubs.all (fun e => !e.2.isEmpty) = true) :
    ∃ T', termRemove s (termAdd s T) = some T' ∧ termIsEmpty T' = termIsEmpty T := by
  cases hq : s.queue with
  | none =>
    have hc := containsKeyEq_self_append s T.psubs
    refine ⟨⟨eraseFirstKey s (T.psubs ++ [s]), T.qsubs⟩, ?_, ?_⟩
    · simp [termAdd, termRemove, hq, hc]
    · apply termIsEmpty_congr
      · show (eraseFirstKey s (T.psubs ++ [s])).length = T.psubs.length
        have hlen := length_eraseFirstKey (s := s) (l := T.psubs ++ [s]) hc
        simp only [List.length_append, List.length_singleton] at hlen
        omega
      · rfl
  | some q =>
    have hupd := assocLookup_update_self q (fun o => o.getD [] ++ [s]) T.qsubs
    cases hl : assocLookup q T.qsubs with
    | none =>
      rw [hl] at hupd
      simp only [Option.getD_none, List.nil_append] at hupd
      refine ⟨T, ?_, rfl⟩
      have hcon : containsKeyEq s [s] = true := by simp [containsKeyEq, subKeyEq_refl]
      have herase : eraseFirstKey s [s] = [] := by simp [eraseFirstKey, subKeyEq_refl]
      simp only [termAdd, termRemove, hq, hupd, hcon, herase, List.isEmpty_nil, if_true]
      rw [assocUpdate_of_lookup_none hl, assocDelete_append_self hl]
    | some l0 =>
      have hl0 : l0.isEmpty = false := by
        have hmem := assocLookup_some_mem hl
        have := (List.all_eq_true.mp hg) _ hmem
        simpa using this
      rw [hl] at hupd
      simp only [Option.getD_some] at hupd
      have hcon := containsKeyEq_self_append s l0
      have hlen : (eraseFirstKey s (l0 ++ [s])).length = l0.length := by
        have hl1 := length_eraseFirstKey (s := s) (l := l0 ++ [s]) hcon
        simp only [List.length_append, List.length_singleton] at hl1
        omega
      have hemp : (eraseFirstKey s (l0 ++ [s])).isEmpty = false := by
        rw [isEmpty_eq_of_length_eq hlen]
        exact hl0
      refine ⟨⟨T.psubs, assocReplace q (eraseFirstKey s (l0 ++ [s]))
          (assocUpdate q (fun o => o.getD [] ++ [s]) T.qsubs)⟩, ?_, ?_⟩
      · simp [termAdd, termRemove, hq, hupd, hcon, hemp]
      · apply termIsEmpty_congr
        · rfl
        · show (assocReplace q _ _).length = T.qsubs.length
          rw [length_assocReplace, length_assocUpdate_of_lookup_some hl]

theorem termCount_append_self (s : Subscription) (l : List Subscription) :
    countKeyEq s (l ++ [s]) = countKeyEq s l + 1 := by
  simp [countKeyEq_append, countKeyEq, List.countP_cons, subKeyEq_refl]

theorem countKeyEq_eraseFirstKey_append (s : Subscription) (l : List Subscription) :
    countKeyEq s (eraseFirstKey s (l ++ [s])) = countKeyEq s l := by
  have hc := containsKeyEq_self_append s l
  have := countKeyEq_eraseFirstKey hc
  rw [termCount_append_self] at this
  omega

theorem termRemove_termAdd_count (s : Subscription) (T : Terminal)
    (hnd : (T.qsubs.map Prod.fst).Nodup) :
    ∃ T', termRemove s (termAdd s T) = some T' ∧ termCount s T' = termCount s T := by
  cases hq : s.queue with
  | none =>
    have hc := containsKeyEq_self_append s T.psubs
    refine ⟨⟨eraseFirstKey s (T.psubs ++ [s]), T.qsubs⟩, ?_, ?_⟩
    · simp [termAdd, termRemove, hq, hc]
    · simp [termCount, hq, countKeyEq_eraseFirstKey_append]
  | some q =>
    have hupd := assocLookup_update_self q (fun o => o.getD [] ++ [s]) T.qsubs
    cases hl : assocLookup q T.qsubs with
    | none =>
      rw [hl] at hupd
      simp only [Option.getD_none, List.nil_append] at hupd
      have hcon : containsKeyEq s [s] = true := by simp [containsKeyEq, subKeyEq_refl]
      have herase : eraseFirstKey s [s] = [] := by simp [eraseFirstKey, subKeyEq_refl]
      refine ⟨T, ?_, rfl⟩
      simp only [termAdd, termRemove, hq, hupd, hcon, herase, List.isEmpty_nil, if_true]
      rw [assocUpdate_of_lookup_none hl, assocDelete_append_self hl]
    | some l0 =>
      rw [hl] at hupd
      simp only [Option.getD_some] at hupd
      have hcon := containsKeyEq_self_append s l0
      have hcnt := countKeyEq_eraseFirstKey_append s l0
      by_cases hemp : (eraseFirstKey s (l0 ++ [s])).isEmpty = true
      · have hcnt0 : countKeyEq s l0 = 0 := by
          rw [List.isEmpty_iff] at hemp
          rw [← hcnt, hemp]
          simp [countKeyEq]
        have hkeys : ((assocUpdate q (fun o => o.getD [] ++ [s]) T.qsubs).map
            Prod.fst).Nodup := by
          rw [keys_assocUpdate_of_lookup_some hl]
          exact hnd
        refine ⟨⟨T.psubs, assocDelete q
            (assocUpdate q (fun o => o.getD [] ++ [s]) T.qsubs)⟩, ?_, ?_⟩
        · simp [termAdd, termRemove, hq, hupd, hcon, hemp]
        · show termCount s _ = termCount s T
          simp only [termCount, hq, hl, Option.getD_some]
          rw [assocLookup_delete_self hkeys]
          simpa [countKeyEq] using hcnt0.symm
      · simp only [Bool.not_eq_true] at hemp
        refine ⟨⟨T.psubs, assocReplace q (eraseFirstKey s (l0 ++ [s]))
            (assocUpdate q (fun o => o.getD [] ++ [s]) T.qsubs)⟩, ?_, ?_⟩
        · simp [termAdd, termRemove, hq, hupd, hcon, hemp]
        · show termCount s _ = termCount s T
          simp only [termCount, hq, hl, Option.getD_some]
          rw [assocLookup_replace_self, hupd]
          simpa using hcnt

/-! ## Node-level helper lemmas -/

theorem shallowWF_emptyNode : shallowWF emptyNode = true := by
  simp [shallowWF, emptyNode, Node.term, Node.gt, emptyTerminal]

theorem nodeAt_emptyNode_cons (e : Edge) (p : List Edge) :
    nodeAt emptyNode (e :: p) = none := by
  cases e <;> simp [nodeAt, emptyNode, Node.children, Node.star, assocLookup]

theorem trieWF_empty : trieWF emptyNode := by
  intro addr n' h
  cases addr with
  | nil =>
    simp only [nodeAt, Option.some_inj] at h
    subst h
    exact ⟨shallowWF_emptyNode, fun hne => absurd rfl hne⟩
  | cons e p => rw [nodeAt_emptyNode_cons] at h; cases h

theorem mapsNodup_empty : mapsNodup emptyNode := by
  intro addr n' h
  cases addr with
  | nil =>
    simp only [nodeAt, Option.some_inj] at h
    subst h
    simp [emptyNode, Node.children, Node.term, Node.gt, emptyTerminal]
  | cons e p => rw [nodeAt_emptyNode_cons] at h; cases h

theorem nodeAt_lit {t : Node} {k : String} {c : Node}
    (h : assocLookup k t.children = some c) (addr : List Edge) :
    nodeAt t (.lit k :: addr) = nodeAt c addr := by
  cases t
  simp only [Node.children] at h
  simp [nodeAt, Node.children, h]

theorem nodeAt_star {t : Node} {c : Node} (h : t.star = some c) (addr : List Edge) :
    nodeAt t (.star :: addr) = nodeAt c addr := by
  cases t
  simp only [Node.star] at h
  simp [nodeAt, Node.star, h]

theorem trieWF_child_lit {t : Node} {k : String} {c : Node} (hwf : trieWF t)
    (h : assocLookup k t.children = some c) : trieWF c ∧ nodeIsEmpty c = false := by
  constructor
  · intro addr n' hn
    obtain ⟨h1, h2⟩ := hwf (.lit k :: addr) n' (by rw [nodeAt_lit h]; exact hn)
    exact ⟨h1, fun _ => h2 (by simp)⟩
  · exact (hwf [.lit k] c (by rw [nodeAt_lit h]; rfl)).2 (by simp)

theorem trieWF_child_star {t : Node} {c : Node} (hwf : trieWF t)
    (h : t.star = some c) : trieWF c ∧ nodeIsEmpty c = false := by
  constructor
  · intro addr n' hn
    obtain ⟨h1, h2⟩ := hwf (.star :: addr) n' (by rw [nodeAt_star h]; exact hn)
    exact ⟨h1, fun _ => h2 (by simp)⟩
  · exact (hwf [.star] c (by rw [nodeAt_star h]; rfl)).2 (by simp)

theorem mapsNodup_child_lit {t : Node} {k : String} {c : Node} (hwf : mapsNodup t)
    (h : assocLookup k t.children = some c) : mapsNodup c := by
  intro addr n' hn
  exact hwf (.lit k :: addr) n' (by rw [nodeAt_lit h]; exact hn)

theorem mapsNodup_child_star {t : Node} {c : Node} (hwf : mapsNodup t)
    (h : t.star = some c) : mapsNodup c := by
  intro addr n' hn
  exact hwf (.star :: addr) n' (by rw [nodeAt_star h]; exact hn)

theorem nodeIsEmpty_emptyNode : nodeIsEmpty emptyNode = true := rfl

theorem removeAt_insertAt_emptyNode (p : List String) (s : Subscription) :
    removeAt p s (insertAt p s emptyNode) = some emptyNode := by
  induction p with
  | nil =>
    show (termRemove s (termAdd s emptyTerminal)).map
        (fun tm' => Node.mk [] none none tm') = some emptyNode
    rw [termRemove_termAdd_emptyT]
    rfl
  | cons t rest ih =>
    show removeAt (t :: rest) s (insertAt (t :: rest) s (.mk [] none none emptyTerminal)) = _
    by_cases h1 : (t = ">" && rest.isEmpty) = true
    · simp only [insertAt, removeAt, h1, if_true, Option.getD_none]
      rw [termRemove_termAdd_emptyT]
      rfl
    · by_cases h2 : t = "*"
      · subst h2
        simp only [insertAt, removeAt, if_neg h1, if_pos rfl, Option.getD_none]
        rw [ih]
        rfl
      · simp only [insertAt, removeAt, if_neg h1, if_neg h2, assocUpdate]
        simp only [assocLookup, if_pos rfl, if_true, Option.getD_none]
        rw [ih]
        simp only [Option.map_some', nodeIsEmpty_emptyNode, if_pos rfl, assocDelete,
          Option.some_inj]
        rfl

theorem hasNode_mk_lit (cs : List (String × Node)) (st : Option Node)
    (g : Option Terminal) (tm : Terminal) (k : String) (p' : List Edge) :
    hasNode (.mk cs st g tm) (.lit k :: p') =
      (match assocLookup k cs with
       | some c => hasNode c p'
       | none => false) := rfl

theorem assocLookup_append_self {β : Type} {k : String} {l : List (String × β)}
    (h : assocLookup k l = none) (v : β) :
    assocLookup k (l ++ [(k, v)]) = some v := by
  induction l with
  | nil => simp [assocLookup]
  | cons e rest ih =>
    obtain ⟨k', v'⟩ := e
    by_cases hk : k' = k
    · simp [assocLookup, hk] at h
    · simp [assocLookup, hk] at h ⊢
      exact ih h

/-- The heart of the Insert/Remove idempotence claim: removing a just-inserted
subscription succeeds and restores the node set (and each node's emptiness)
of any well-formed trie. -/
theorem removeAt_insertAt_hasNode (p : List String) (s : Subscription) :
    ∀ t : Node, trieWF t →
    ∃ t', removeAt p s (insertAt p s t) = some t' ∧
      (∀ addr, hasNode t' addr = hasNode t addr) ∧
      nodeIsEmpty t' = nodeIsEmpty t := by
  induction p with
  | nil =>
    rintro ⟨cs, st, g, tm⟩ hwf
    have hsh := (hwf [] _ rfl).1
    simp only [shallowWF, Node.term, Node.gt, Bool.and_eq_true] at hsh
    obtain ⟨T', hrm, hemp⟩ := termRemove_termAdd_of_groups s tm hsh.1
    refine ⟨.mk cs st g T', ?_, ?_, ?_⟩
    · show (termRemove s (termAdd s tm)).map (fun tm' => Node.mk cs st g tm') = _
      rw [hrm]
      rfl
    · intro addr
      cases addr with
      | nil => rfl
      | cons e p' => cases e <;> rfl
    · simp only [nodeIsEmpty, Node.children, Node.star, Node.gt, Node.term, hemp]
  | cons t0 rest ih =>
    rintro ⟨cs, st, g, tm⟩ hwf
    by_cases h1 : (t0 = ">" && rest.isEmpty) = true
    · cases hg : g with
      | none =>
        refine ⟨.mk cs st none tm, ?_, fun addr => rfl, rfl⟩
        simp only [insertAt, removeAt, h1, if_true, Option.getD_none]
        rw [termRemove_termAdd_emptyT]
        rfl
      | some T =>
        have hsh := (hwf [] _ rfl).1
        rw [hg] at hsh
        simp only [shallowWF, Node.term, Node.gt, Bool.and_eq_true,
          Bool.not_eq_true'] at hsh
        obtain ⟨hTg, hTne, hTgrp⟩ := hsh
        obtain ⟨T', hrm, hemp⟩ := termRemove_termAdd_of_groups s T hTgrp
        have hTE' : termIsEmpty T' = false := by
          rw [hemp]
          exact hTne
        refine ⟨.mk cs st (some T') tm, ?_, ?_, ?_⟩
        · simp only [insertAt, removeAt, h1, if_true, Option.getD_some]
          rw [hrm]
          simp [hTE']
        · intro addr
          cases addr with
          | nil => rfl
          | cons e p' => cases e <;> rfl
        · rfl
    · by_cases h2 : t0 = "*"
      · subst h2
        cases hst : st with
        | none =>
          refine ⟨.mk cs none g tm, ?_, fun addr => rfl, rfl⟩
          simp only [insertAt, removeAt, if_neg h1, if_pos rfl, Option.getD_none]
          rw [removeAt_insertAt_emptyNode]
          rfl
        | some c =>
          rw [hst] at hwf
          obtain ⟨hwfc, hcne⟩ := trieWF_child_star hwf
            (show Node.star (.mk cs (some c) g tm) = some c from rfl)
          obtain ⟨c', hrm, hhn, hemp⟩ := ih c hwfc
          have hcne' : nodeIsEmpty c' = false := by rw [hemp]; exact hcne
          refine ⟨.mk cs (some c') g tm, ?_, ?_, ?_⟩
          · simp only [insertAt, removeAt, if_neg h1, if_pos rfl, Option.getD_some]
            rw [hrm]
            simp [hcne']
          · intro addr
            cases addr with
            | nil => rfl
            | cons e p' =>
              cases e with
              | lit k => rfl
              | fwc => rfl
              | star =>
                show hasNode c' p' = hasNode c p'
                exact hhn p'
          · rfl
      · cases hlk : assocLookup t0 cs with
        | none =>
          refine ⟨.mk cs st g tm, ?_, fun addr => rfl, rfl⟩
          simp only [insertAt, removeAt, if_neg h1, if_neg h2]
          rw [assocUpdate_of_lookup_none hlk]
          simp only [Option.getD_none]
          rw [assocLookup_append_self hlk]
          simp only [removeAt_insertAt_emptyNode, Option.map_some',
            nodeIsEmpty_emptyNode, if_pos rfl]
          rw [assocDelete_append_self hlk]
          simp
        | some c =>
          obtain ⟨hwfc, hcne⟩ := trieWF_child_lit hwf
            (show assocLookup t0 (Node.children (.mk cs st g tm)) = some c from hlk)
          obtain ⟨c', hrm, hhn, hemp⟩ := ih c hwfc
          have hcne' : nodeIsEmpty c' = false := by rw [hemp]; exact hcne
          have hlu := assocLookup_update_self t0
            (fun o => insertAt rest s (o.getD emptyNode)) cs
          rw [hlk] at hlu
          simp only [Option.getD_some] at hlu
          refine ⟨.mk (assocReplace t0 c'
              (assocUpdate t0 (fun o => insertAt rest s (o.getD emptyNode)) cs))
              st g tm, ?_, ?_, ?_⟩
          · simp only [insertAt, removeAt, if_neg h1, if_neg h2]
            rw [hlu]
            simp [hrm, hcne']
          · intro addr
            cases addr with
            | nil => rfl
            | cons e p' =>
              cases e with
              | star => rfl
              | fwc => rfl
              | lit k =>
                rw [hasNode_mk_lit, hasNode_mk_lit]
                by_cases hk : k = t0
                · subst hk
                  rw [hlk]
                  have : assocLookup k (assocReplace k c'
                      (assocUpdate k (fun o => insertAt rest s (o.getD emptyNode)) cs))
                      = some c' := by
                    rw [assocLookup_replace_self, hlu]
                    rfl
                  rw [this]
                  exact hhn p'
                · rw [assocLookup_replace_other hk, assocLookup_update_other hk]
          · simp only [nodeIsEmpty, Node.children, Node.star, Node.gt, Node.term]
            have hlen : (assocReplace t0 c'
                (assocUpdate t0 (fun o => insertAt rest s (o.getD emptyNode)) cs)).length
                = cs.length := by
              rw [length_assocReplace, length_assocUpdate_of_lookup_some hlk]
            rw [isEmpty_eq_of_length_eq hlen]

theorem countAt_cons_fwc {t0 : String} {rest : List String}
    (h1 : (t0 = ">" && rest.isEmpty) = true) (s : Subscription) (n : Node) :
    countAt (t0 :: rest) s n =
      (match n.gt with
       | some T => termCount s T
       | none => 0) := by
  simp only [countAt]
  rw [if_pos h1]

theorem countAt_cons_star {t0 : String} {rest : List String}
    (h1 : ¬(t0 = ">" && rest.isEmpty) = true) (h2 : t0 = "*") (s : Subscription)
    (n : Node) :
    countAt (t0 :: rest) s n =
      (match n.star with
       | some c => countAt rest s c
       | none => 0) := by
  simp only [countAt]
  rw [if_neg h1, if_pos h2]

theorem countAt_cons_lit {t0 : String} {rest : List String}
    (h1 : ¬(t0 = ">" && rest.isEmpty) = true) (h2 : ¬t0 = "*") (s : Subscription)
    (n : Node) :
    countAt (t0 :: rest) s n =
      (match assocLookup t0 n.children with
       | some c => countAt rest s c
       | none => 0) := by
  simp only [countAt]
  rw [if_neg h1, if_neg h2]

theorem removeAt_mk_fwc {t0 : String} {rest : List String}
    (h1 : (t0 = ">" && rest.isEmpty) = true) (s : Subscription)
    (cs : List (String × Node)) (st : Option Node) (g : Option Terminal)
    (tm : Terminal) :
    removeAt (t0 :: rest) s (.mk cs st g tm) =
      (match g with
       | none => none
       | some T =>
         (termRemove s T).map fun T' =>
           Node.mk cs st (if termIsEmpty T' then none else some T') tm) := by
  simp only [removeAt]
  rw [if_pos h1]

theorem removeAt_mk_star {t0 : String} {rest : List String}
    (h1 : ¬(t0 = ">" && rest.isEmpty) = true) (h2 : t0 = "*") (s : Subscription)
    (cs : List (String × Node)) (st : Option Node) (g : Option Terminal)
    (tm : Terminal) :
    removeAt (t0 :: rest) s (.mk cs st g tm) =
      (match st with
       | none => none
       | some c =>
         (removeAt rest s c).map fun c' =>
           Node.mk cs (if nodeIsEmpty c' then none else some c') g tm) := by
  simp only [removeAt]
  rw [if_neg h1, if_pos h2]

theorem removeAt_mk_lit {t0 : String} {rest : List String}
    (h1 : ¬(t0 = ">" && rest.isEmpty) = true) (h2 : ¬t0 = "*") (s : Subscription)
    (cs : List (String × Node)) (st : Option Node) (g : Option Terminal)
    (tm : Terminal) :
    removeAt (t0 :: rest) s (.mk cs st g tm) =
      (match assocLookup t0 cs with
       | none => none
       | some c =>
         (removeAt rest s c).map fun c' =>
           Node.mk (if nodeIsEmpty c' then assocDelete t0 cs else assocReplace t0 c' cs)
             st g tm) := by
  simp only [removeAt]
  rw [if_neg h1, if_neg h2]

theorem termCount_of_isEmpty {T : Terminal} (h : termIsEmpty T = true)
    (s : Subscription) : termCount s T = 0 := by
  simp only [termIsEmpty, Bool.and_eq_true, List.isEmpty_iff] at h
  obtain ⟨hp, hq2⟩ := h
  cases hq : s.queue <;> simp [termCount, hq, hp, hq2, countKeyEq, assocLookup]

theorem termRemove_eq_none (s : Subscription) (T : Terminal)
    (h : termCount s T = 0) : termRemove s T = none := by
  cases hq : s.queue with
  | none =>
    simp only [termCount, hq] at h
    have hc : containsKeyEq s T.psubs = false := by
      rw [← Bool.not_eq_true]
      intro hcc
      have := (containsKeyEq_iff_countPos s T.psubs).mp hcc
      omega
    simp [termRemove, hq, hc]
  | some q =>
    simp only [termCount, hq] at h
    cases hl : assocLookup q T.qsubs with
    | none => simp [termRemove, hq, hl]
    | some l =>
      rw [hl] at h
      simp only [Option.getD_some] at h
      have hc : containsKeyEq s l = false := by
        rw [← Bool.not_eq_true]
        intro hcc
        have := (containsKeyEq_iff_countPos s l).mp hcc
        omega
      simp [termRemove, hq, hl, hc]

theorem countAt_of_nodeIsEmpty (p : List String) (s : Subscription) {n : Node}
    (h : nodeIsEmpty n = true) : countAt p s n = 0 := by
  obtain ⟨cs, st, g, tm⟩ := n
  simp only [nodeIsEmpty, Node.children, Node.star, Node.gt, Node.term,
    Bool.and_eq_true, List.isEmpty_iff, Option.isNone_iff_eq_none] at h
  obtain ⟨⟨⟨hcs, hst⟩, hg⟩, htm⟩ := h
  subst hcs
  subst hst
  subst hg
  cases p with
  | nil =>
    simp only [countAt, Node.term]
    exact termCount_of_isEmpty htm s
  | cons t0 rest =>
    by_cases h1 : (t0 = ">" && rest.isEmpty) = true
    · simp [countAt_cons_fwc h1, Node.gt]
    · by_cases h2 : t0 = "*"
      · subst h2
        simp [countAt_cons_star h1 rfl, Node.star]
      · simp [countAt_cons_lit h1 h2, Node.children, assocLookup]

theorem removeAt_none_of_countAt_zero (p : List String) (s : Subscription) :
    ∀ t : Node, countAt p s t = 0 → removeAt p s t = none := by
  induction p with
  | nil =>
    rintro ⟨cs, st, g, tm⟩ h
    simp only [countAt, Node.term] at h
    show (termRemove s tm).map (fun tm2 => Node.mk cs st g tm2) = none
    rw [termRemove_eq_none s tm h]
    rfl
  | cons t0 rest ih =>
    rintro ⟨cs, st, g, tm⟩ h
    by_cases h1 : (t0 = ">" && rest.isEmpty) = true
    · cases hg : g with
      | none => simp [removeAt_mk_fwc h1]
      | some T =>
        simp only [countAt_cons_fwc h1, Node.gt, hg] at h
        simp [removeAt_mk_fwc h1, termRemove_eq_none s T h]
    · by_cases h2 : t0 = "*"
      · subst h2
        cases hst : st with
        | none => simp [removeAt_mk_star h1 rfl]
        | some c =>
          simp only [countAt_cons_star h1 rfl, Node.star, hst] at h
          simp [removeAt_mk_star h1 rfl, ih c h]
      · cases hlk : assocLookup t0 cs with
        | none => simp [removeAt_mk_lit h1 h2, hlk]
        | some c =>
          simp only [countAt_cons_lit h1 h2, Node.children, hlk] at h
          simp [removeAt_mk_lit h1 h2, hlk, ih c h]

/-- The count-preservation core of the cancel-function idempotence claim:
removing a just-inserted subscription succeeds and restores the registration
count of the subscription on any trie whose maps have distinct keys. -/
theorem removeAt_insertAt_count (p : List String) (s : Subscription) :
    ∀ t : Node, mapsNodup t →
    ∃ t', removeAt p s (insertAt p s t) = some t' ∧
      countAt p s t' = countAt p s t := by
  induction p with
  | nil =>
    rintro ⟨cs, st, g, tm⟩ hnd
    have hq : (tm.qsubs.map Prod.fst).Nodup := (hnd [] _ rfl).2.1
    obtain ⟨T', hrm, hcnt⟩ := termRemove_termAdd_count s tm hq
    refine ⟨.mk cs st g T', ?_, ?_⟩
    · show (termRemove s (termAdd s tm)).map (fun tm2 => Node.mk cs st g tm2) = _
      rw [hrm]
      rfl
    · simpa [countAt, Node.term] using hcnt
  | cons t0 rest ih =>
    rintro ⟨cs, st, g, tm⟩ hnd
    by_cases h1 : (t0 = ">" && rest.isEmpty) = true
    · cases hg : g with
      | none =>
        refine ⟨.mk cs st none tm, ?_, rfl⟩
        simp only [insertAt, removeAt, h1, if_true, Option.getD_none]
        rw [termRemove_termAdd_emptyT]
        rfl
      | some T =>
        rw [hg] at hnd
        have hTnd : (T.qsubs.map Prod.fst).Nodup := (hnd [] _ rfl).2.2
        obtain ⟨T', hrm, hcnt⟩ := termRemove_termAdd_count s T hTnd
        by_cases hTE : termIsEmpty T' = true
        · have hc0 : termCount s T = 0 := by
            rw [← hcnt]
            exact termCount_of_isEmpty hTE s
          refine ⟨.mk cs st none tm, ?_, ?_⟩
          · simp only [insertAt, removeAt, h1, if_true, Option.getD_some]
            rw [hrm]
            simp [hTE]
          · simp [countAt_cons_fwc h1, Node.gt, hc0]
        · simp only [Bool.not_eq_true] at hTE
          refine ⟨.mk cs st (some T') tm, ?_, ?_⟩
          · simp only [insertAt, removeAt, h1, if_true, Option.getD_some]
            rw [hrm]
            simp [hTE]
          · simp [countAt_cons_fwc h1, Node.gt, hcnt]
    · by_cases h2 : t0 = "*"
      · subst h2
        cases hst : st with
        | none =>
          refine ⟨.mk cs none g tm, ?_, rfl⟩
          simp only [insertAt, removeAt, if_neg h1, if_pos rfl, Option.getD_none]
          rw [removeAt_insertAt_emptyNode]
          rfl
        | some c =>
          rw [hst] at hnd
          have hndc : mapsNodup c := mapsNodup_child_star hnd rfl
          obtain ⟨c', hrm, hcnt⟩ := ih c hndc
          by_cases hce : nodeIsEmpty c' = true
          · have hc0 : countAt rest s c = 0 := by
              rw [← hcnt]
              exact countAt_of_nodeIsEmpty rest s hce
            refine ⟨.mk cs none g tm, ?_, ?_⟩
            · simp only [insertAt, removeAt, if_neg h1, if_pos rfl, Option.getD_some]
              rw [hrm]
              simp [hce]
            · simp [countAt_cons_star h1 rfl, Node.star, hc0]
          · simp only [Bool.not_eq_true] at hce
            refine ⟨.mk cs (some c') g tm, ?_, ?_⟩
            · simp only [insertAt, removeAt, if_neg h1, if_pos rfl, Option.getD_some]
              rw [hrm]
              simp [hce]
            · simp [countAt_cons_star h1 rfl, Node.star, hcnt]
      · cases hlk : assocLookup t0 cs with
        | none =>
          refine ⟨.mk cs st g tm, ?_, rfl⟩
          simp only [insertAt, removeAt, if_neg h1, if_neg h2]
          rw [assocUpdate_of_lookup_none hlk]
          simp only [Option.getD_none]
          rw [assocLookup_append_self hlk]
          simp only [removeAt_insertAt_emptyNode, Option.map_some',
            nodeIsEmpty_emptyNode, if_pos rfl]
          rw [assocDelete_append_self hlk]
          simp
        | some c =>
          have hndc : mapsNodup c := mapsNodup_child_lit hnd hlk
          obtain ⟨c', hrm, hcnt⟩ := ih c hndc
          have hlu := assocLookup_update_self t0
            (fun o => insertAt rest s (o.getD emptyNode)) cs
          rw [hlk] at hlu
          simp only [Option.getD_some] at hlu
          by_cases hce : nodeIsEmpty c' = true
          · have hc0 : countAt rest s c = 0 := by
              rw [← hcnt]
              exact countAt_of_nodeIsEmpty rest s hce
            have hkeys : ((assocUpdate t0
                (fun o => insertAt rest s (o.getD emptyNode)) cs).map Prod.fst).Nodup := by
              rw [keys_assocUpdate_of_lookup_some hlk]
              exact (hnd [] _ rfl).1
            refine ⟨.mk (assocDelete t0 (assocUpdate t0
                (fun o => insertAt rest s (o.getD emptyNode)) cs)) st g tm, ?_, ?_⟩
            · simp only [insertAt, removeAt, if_neg h1, if_neg h2]
              rw [hlu]
              simp [hrm, hce]
            · have hld := assocLookup_delete_self (k := t0) hkeys
              simp [countAt_cons_lit h1 h2, Node.children, hld, hlk, hc0]
          · simp only [Bool.not_eq_true] at hce
            have hrl : assocLookup t0 (assocReplace t0 c' (assocUpdate t0
                (fun o => insertAt rest s (o.getD emptyNode)) cs)) = some c' := by
              rw [assocLookup_replace_self, hlu]
              rfl
            refine ⟨.mk (assocReplace t0 c' (assocUpdate t0
                (fun o => insertAt rest s (o.getD emptyNode)) cs)) st g tm, ?_, ?_⟩
            · simp only [insertAt, removeAt, if_neg h1, if_neg h2]
              rw [hlu]
              simp [hrm, hce]
            · simp [countAt_cons_lit h1 h2, Node.children, hrl, hlk, hcnt]

/-! ## Match engine lemmas -/

theorem insertAt_mk_fwc {t0 : String} {rest : List String}
    (h1 : (t0 = ">" && rest.isEmpty) = true) (sub : Subscription)
    (cs : List (String × Node)) (st : Option Node) (g : Option Terminal)
    (tm : Terminal) :
    insertAt (t0 :: rest) sub (.mk cs st g tm) =
      .mk cs st (some (termAdd sub (g.getD emptyTerminal))) tm := by
  simp only [insertAt]
  rw [if_pos h1]

theorem insertAt_mk_star {t0 : String} {rest : List String}
    (h1 : ¬(t0 = ">" && rest.isEmpty) = true) (h2 : t0 = "*") (sub : Subscription)
    (cs : List (String × Node)) (st : Option Node) (g : Option Terminal)
    (tm : Terminal) :
    insertAt (t0 :: rest) sub (.mk cs st g tm) =
      .mk cs (some (insertAt rest sub (st.getD emptyNode))) g tm := by
  simp only [insertAt]
  rw [if_neg h1, if_pos h2]

theorem insertAt_mk_lit {t0 : String} {rest : List String}
    (h1 : ¬(t0 = ">" && rest.isEmpty) = true) (h2 : ¬t0 = "*") (sub : Subscription)
    (cs : List (String × Node)) (st : Option Node) (g : Option Terminal)
    (tm : Terminal) :
    insertAt (t0 :: rest) sub (.mk cs st g tm) =
      .mk (assocUpdate t0 (fun o => insertAt rest sub (o.getD emptyNode)) cs) st g tm := by
  simp only [insertAt]
  rw [if_neg h1, if_neg h2]

theorem psubs_matchAt_cons (t0 : String) (rest : List String)
    (cs : List (String × Node)) (st : Option Node) (g : Option Terminal)
    (tm : Terminal) :
    (matchAt (t0 :: rest) (.mk cs st g tm)).psubs =
      (match g with
       | some T => T.psubs
       | none => []) ++
      ((match assocLookup t0 cs with
        | some c => (matchAt rest c).psubs
        | none => []) ++
       (match st with
        | some c => (matchAt rest c).psubs
        | none => [])) := by
  cases g <;> cases hlk : assocLookup t0 cs <;> cases st <;>
    simp [matchAt, mergeResult, addTerminal, emptyResult, Node.gt, Node.children,
      Node.star, hlk]

theorem validPubTokens_no_wildcards {ts : List String} (h : validPubTokens ts = true) :
    ∀ t ∈ ts, t ≠ "*" ∧ t ≠ ">" := by
  cases ts with
  | nil => simp [validPubTokens] at h
  | cons a as =>
    intro t ht
    have hall : ((a :: as).all fun t => !(t == "" || t == "*" || t == ">")) = true := h
    have := (List.all_eq_true.mp hall) t ht
    simp only [Bool.not_eq_true', Bool.or_eq_false_iff, beq_eq_false_iff_ne] at this
    exact ⟨this.1.2, this.2⟩

/-- The core of the match-semantics claim: a single no-queue subscription
inserted into the empty trie is found by the match traversal exactly on the
subjects its pattern matches declaratively. -/
theorem mem_matchAt_insert_iff (s : List String) :
    ∀ (p : List String) (sub : Subscription),
    (∀ x ∈ s, x ≠ "*" ∧ x ≠ ">") → sub.queue = none →
    ((sub ∈ (matchAt s (insertAt p sub emptyNode)).psubs) ↔ specMatch p s = true) := by
  induction s with
  | nil =>
    intro p sub hs hq
    cases p with
    | nil =>
      simp [insertAt, emptyNode, matchAt, addTerminal, emptyResult, Node.term,
        termAdd, hq, emptyTerminal, specMatch]
    | cons t0 rest =>
      have hterm : (insertAt (t0 :: rest) sub (.mk [] none none emptyTerminal)).term
          = emptyTerminal := by
        by_cases h1 : (t0 = ">" && rest.isEmpty) = true
        · rw [insertAt_mk_fwc h1]
          rfl
        · by_cases h2 : t0 = "*"
          · rw [insertAt_mk_star h1 h2]
            rfl
          · rw [insertAt_mk_lit h1 h2]
            rfl
      show sub ∈ (matchAt [] (insertAt (t0 :: rest) sub
          (.mk [] none none emptyTerminal))).psubs ↔ _
      rw [show matchAt [] (insertAt (t0 :: rest) sub (.mk [] none none emptyTerminal))
          = addTerminal (insertAt (t0 :: rest) sub
              (.mk [] none none emptyTerminal)).term emptyResult from rfl, hterm]
      simp [addTerminal, emptyResult, emptyTerminal, specMatch]
  | cons x xs ih =>
    intro p sub hs hq
    have hx := hs x (List.mem_cons_self _ _)
    have hs' : ∀ y ∈ xs, y ≠ "*" ∧ y ≠ ">" := fun y hy => hs y (List.mem_cons_of_mem _ hy)
    cases p with
    | nil =>
      show sub ∈ (matchAt (x :: xs) (.mk [] none none
          (termAdd sub emptyTerminal))).psubs ↔ _
      rw [psubs_matchAt_cons]
      simp [assocLookup, specMatch]
    | cons t0 rest =>
      by_cases h1 : (t0 = ">" && rest.isEmpty) = true
      · obtain ⟨hd, he⟩ := Bool.and_eq_true_iff.mp h1
        have ht0 : t0 = ">" := of_decide_eq_true hd
        have hrest : rest = [] := List.isEmpty_iff.mp he
        subst ht0
        subst hrest
        show sub ∈ (matchAt (x :: xs) (insertAt [">"] sub
            (.mk [] none none emptyTerminal))).psubs ↔ _
        rw [insertAt_mk_fwc h1, psubs_matchAt_cons]
        simp [termAdd, hq, emptyTerminal, assocLookup, specMatch]
      · by_cases h2 : t0 = "*"
        · subst h2
          show sub ∈ (matchAt (x :: xs) (insertAt ("*" :: rest) sub
              (.mk [] none none emptyTerminal))).psubs ↔ _
          rw [insertAt_mk_star h1 rfl, psubs_matchAt_cons]
          have hxs : ¬("*" : String) = x := fun hc => hx.1 hc.symm
          simp only [Option.getD_none, assocLookup, List.nil_append,
            List.append_nil]
          rw [ih rest sub hs' hq]
          simp [specMatch, hxs]
        · show sub ∈ (matchAt (x :: xs) (insertAt (t0 :: rest) sub
              (.mk [] none none emptyTerminal))).psubs ↔ _
          rw [insertAt_mk_lit h1 h2, psubs_matchAt_cons]
          simp only [assocUpdate, Option.getD_none]
          by_cases hxt : t0 = x
          · subst hxt
            simp only [assocLookup, if_pos rfl, if_true, List.nil_append,
              List.append_nil]
            rw [ih rest sub hs' hq]
            have hgt : (t0 == ">" && rest.isEmpty) = false := by
              rw [← Bool.not_eq_true]
              exact h1
            simp [specMatch, hgt]
          · simp only [assocLookup, if_neg hxt, List.nil_append, List.append_nil]
            have hgt : (t0 == ">" && rest.isEmpty) = false := by
              rw [← Bool.not_eq_true]
              exact h1
            have hxt' : (t0 == x) = false := beq_eq_false_iff_ne.mpr hxt
            have h2' : (t0 == "*") = false := beq_eq_false_iff_ne.mpr h2
            simp [specMatch, hgt, hxt', h2']

/-! ## Go arithmetic lemmas (h2 codec) -/

theorem w64_eq {n : Nat} (h : n < U64) : w64 n = n := Nat.mod_eq_of_lt h

theorem gadd_eq {x y : Nat} (h : x + y < U64) : gadd x y = x + y := w64_eq h

theorem gsub_eq {x y : Nat} (hy : y ≤ x) (hx : x < U64) : gsub x y = x - y := by
  rw [gsub, w64_eq (lt_of_le_of_lt hy hx)]
  have h1 : x + U64 - y = (x - y) + U64 := by omega
  rw [h1, w64, Nat.add_mod_right, Nat.mod_eq_of_lt (by omega)]

theorem gshl_eq {x s : Nat} (h : x * 2 ^ s < U64) : gshl x s = x * 2 ^ s := by
  rw [gshl, Nat.shiftLeft_eq, w64_eq h]

theorem gshr_eq (x s : Nat) : gshr x s = x / 2 ^ s := by
  rw [gshr, Nat.shiftRight_eq_div_pow]

theorem size_eq_size_div_two {n : Nat} (h : n ≠ 0) :
    Nat.size n = Nat.size (n / 2) + 1 := by
  conv_lhs => rw [← Nat.bit_decomp n]
  rw [Nat.size_bit (by rw [Nat.bit_decomp]; exact h), Nat.div2_val]

theorem len64Aux_eq_size : ∀ fuel n, n < 2 ^ fuel → len64Aux fuel n = Nat.size n := by
  intro fuel
  induction fuel with
  | zero =>
    intro n hn
    have h0 : n = 0 := by omega
    subst h0
    simp [len64Aux]
  | succ fuel ih =>
    intro n hn
    by_cases h0 : n = 0
    · subst h0
      simp [len64Aux]
    · rw [show len64Aux (fuel + 1) n = len64Aux fuel (n / 2) + 1 by
        simp [len64Aux, h0]]
      have hhalf : n / 2 < 2 ^ fuel := by
        rw [Nat.div_lt_iff_lt_mul (by norm_num : (0:Nat) < 2)]
        calc n < 2 ^ (fuel + 1) := hn
          _ = 2 ^ fuel * 2 := by rw [pow_succ]
      rw [ih (n / 2) hhalf, ← size_eq_size_div_two h0]

theorem len64_eq_size {n : Nat} (h : n < 2 ^ 64) : len64 n = Nat.size n :=
  len64Aux_eq_size 64 n h

theorem two_pow_63_lt_U64 : (2:Nat) ^ 63 < U64 := by
  rw [show U64 = 2 ^ 64 from rfl]
  norm_num

theorem two_pow_lt_U64 {n : Nat} (hn : n ≤ 63) : (2:Nat) ^ n < U64 :=
  lt_of_le_of_lt (Nat.pow_le_pow_right (by norm_num) hn) two_pow_63_lt_U64

theorem small_lt_U64 : (64:Nat) < U64 :=
  lt_of_le_of_lt (by norm_num : (64:Nat) ≤ 2 ^ 63) two_pow_63_lt_U64

/-- `Decode64 ∘ Encode64` always lands on an aligned bin `[⌊v/2^d⌋·2^d, +2^d)`
for some width exponent `d` (the A exponent in the linear section, `s - B` in
the log section). -/
theorem decode64_encode64 (a b v : Nat) (hc : a + b + 1 ≤ 63) (hv : v < 2 ^ 64) :
    ∃ d : Nat,
      Encoding.Decode64 ⟨a, b⟩ (Encoding.Encode64 ⟨a, b⟩ v)
        = (v / 2 ^ d * 2 ^ d, 2 ^ d) := by
  have h64U := small_lt_U64
  have hcadd : gadd (gadd a b) 1 = a + b + 1 := by
    rw [gadd_eq (show a + b < U64 by omega), gadd_eq (show a + b + 1 < U64 by omega)]
  have hshl1c : gshl 1 (a + b + 1) = 2 ^ (a + b + 1) := by
    rw [gshl_eq (by rw [one_mul]; exact two_pow_lt_U64 hc), one_mul]
  have hca : a + b + 1 - a = b + 1 := by omega
  have hbins : gshl 1 (gsub (a + b + 1) a) = 2 ^ (b + 1) := by
    rw [gsub_eq (by omega) (by omega), hca]
    rw [gshl_eq (by rw [one_mul]; exact two_pow_lt_U64 (by omega)), one_mul]
  by_cases hlin : v < 2 ^ (a + b + 1)
  · refine ⟨a, ?_⟩
    have henc : Encoding.Encode64 ⟨a, b⟩ v = v / 2 ^ a := by
      simp only [Encoding.Encode64, hcadd, hshl1c]
      rw [if_pos hlin, gshr_eq]
    have hidx : v / 2 ^ a < 2 ^ (b + 1) := by
      rw [Nat.div_lt_iff_lt_mul (pow_pos (by norm_num) a)]
      calc v < 2 ^ (a + b + 1) := hlin
        _ = 2 ^ (b + 1) * 2 ^ a := by
          rw [← pow_add, show b + 1 + a = a + b + 1 from by omega]
    have hqa : v / 2 ^ a * 2 ^ a < U64 := by
      have h1 : v / 2 ^ a * 2 ^ a ≤ v := Nat.div_mul_le_self v _
      have h2 : v < U64 := by rw [show U64 = 2 ^ 64 from rfl]; exact hv
      omega
    rw [henc]
    simp only [Encoding.Decode64, hcadd, hbins]
    rw [if_pos hidx, gshl_eq hqa,
      gshl_eq (by rw [one_mul]; exact two_pow_lt_U64 (by omega)), one_mul]
  · refine ⟨Nat.size v - 1 - b, ?_⟩
    have hlog : 2 ^ (a + b + 1) ≤ v := Nat.le_of_not_lt hlin
    have hvpos : 0 < v := lt_of_lt_of_le (pow_pos (by norm_num) _) hlog
    have hszpos : 0 < Nat.size v := Nat.size_pos.mpr hvpos
    set s := Nat.size v - 1 with hs_def
    have hs1 : 2 ^ s ≤ v := Nat.lt_size.mp (by omega)
    have hs2 : v < 2 ^ (s + 1) := by
      have : Nat.size v ≤ s + 1 := by omega
      exact lt_of_lt_of_le (Nat.lt_size_self v)
        (Nat.pow_le_pow_right (by norm_num) this)
    have hcs : a + b + 1 ≤ s := by
      by_contra hcon
      push_neg at hcon
      have h1 : s + 1 ≤ a + b + 1 := hcon
      have h2 : (2:Nat) ^ (s + 1) ≤ 2 ^ (a + b + 1) :=
        Nat.pow_le_pow_right (by norm_num) h1
      omega
    have hs63 : s ≤ 63 := by
      have h1 : Nat.size v ≤ 64 := Nat.size_le.mpr hv
      omega
    have hbs : b ≤ s := by omega
    have hsz64 : Nat.size v < U64 := by
      have h1 : Nat.size v ≤ 64 := Nat.size_le.mpr hv
      omega
    -- the encoder's log segment is s
    have hlogseg : gsub (len64 v) 1 = s := by
      rw [len64_eq_size hv, gsub_eq (by omega) hsz64]
    have hsb : gsub s b = s - b := gsub_eq hbs (by omega)
    set q := v / 2 ^ (s - b) with hq_def
    have hps : (2:Nat) ^ s = 2 ^ b * 2 ^ (s - b) := by
      rw [← pow_add, show b + (s - b) = s from by omega]
    have hq1 : 2 ^ b ≤ q := by
      have h1 : 2 ^ s / 2 ^ (s - b) ≤ q := Nat.div_le_div_right hs1
      rw [hps, Nat.mul_div_cancel _ (pow_pos (by norm_num) _)] at h1
      exact h1
    have hq2 : q < 2 ^ (b + 1) := by
      rw [hq_def, Nat.div_lt_iff_lt_mul (pow_pos (by norm_num) _)]
      calc v < 2 ^ (s + 1) := hs2
        _ = 2 ^ (b + 1) * 2 ^ (s - b) := by
          rw [← pow_add, show b + 1 + (s - b) = s + 1 from by omega]
    set u := s - (a + b + 1) with hu_def
    have hsc : gsub s (a + b + 1) = u := gsub_eq hcs (by omega)
    have hscu : gadd u 1 = u + 1 := gadd_eq (by omega)
    have hu63 : u + 1 ≤ 64 - (a + b + 1) := by omega
    have hk : 64 - (a + b + 1) ≤ 2 ^ (63 - (a + b + 1)) := by
      have h1 := Nat.lt_two_pow (63 - (a + b + 1))
      omega
    have hshlu : gshl (u + 1) b = (u + 1) * 2 ^ b := by
      apply gshl_eq
      have h1 : (u + 1) * 2 ^ b ≤ 2 ^ (63 - (a + b + 1)) * 2 ^ b :=
        Nat.mul_le_mul_right _ (le_trans hu63 hk)
      have h2 : (2:Nat) ^ (63 - (a + b + 1)) * 2 ^ b ≤ 2 ^ 62 := by
        rw [← pow_add]
        exact Nat.pow_le_pow_right (by norm_num) (by omega)
      have h3 : (2:Nat) ^ 62 < U64 := two_pow_lt_U64 (by norm_num)
      omega
    have hub : (u + 1) * 2 ^ b ≤ 2 ^ 62 := by
      have h1 : (u + 1) * 2 ^ b ≤ 2 ^ (63 - (a + b + 1)) * 2 ^ b :=
        Nat.mul_le_mul_right _ (le_trans hu63 hk)
      have h2 : (2:Nat) ^ (63 - (a + b + 1)) * 2 ^ b ≤ 2 ^ 62 := by
        rw [← pow_add]
        exact Nat.pow_le_pow_right (by norm_num) (by omega)
      omega
    have hqb : q ≤ 2 ^ 63 := by
      have h1 : (2:Nat) ^ (b + 1) ≤ 2 ^ 63 :=
        Nat.pow_le_pow_right (by norm_num) (by omega)
      omega
    have hidxU : q + (u + 1) * 2 ^ b < U64 := by
      have h1 : (2:Nat) ^ 62 < U64 := two_pow_lt_U64 (by norm_num)
      have h2 : (2:Nat) ^ 63 < U64 := two_pow_63_lt_U64
      have h3 : (2:Nat) ^ 62 + 2 ^ 62 = 2 ^ 63 := by ring
      have h4 : (2:Nat) ^ 63 + 2 ^ 63 = 2 ^ 64 := by ring
      have h5 : U64 = 2 ^ 64 := rfl
      have h6 : (2:Nat) ^ (b + 1) ≤ 2 ^ 63 :=
        Nat.pow_le_pow_right (by norm_num) (by omega)
      omega
    have henc : Encoding.Encode64 ⟨a, b⟩ v = q + (u + 1) * 2 ^ b := by
      simp only [Encoding.Encode64, hcadd, hshl1c]
      rw [if_neg (by omega), hlogseg, hsb, hsc, hscu, hshlu, gshr_eq,
        gadd_eq (by omega)]
    rw [henc]
    -- decoding
    set r := q - 2 ^ b with hr_def
    have hqr : q = 2 ^ b + r := by omega
    have hr2 : r < 2 ^ b := by omega
    have hidx_ge : 2 ^ (b + 1) ≤ q + (u + 1) * 2 ^ b := by
      have h1 : 2 ^ b ≤ (u + 1) * 2 ^ b := Nat.le_mul_of_pos_left _ (by omega)
      have h2 : (2:Nat) ^ (b + 1) = 2 ^ b + 2 ^ b := by ring
      omega
    have hrw1 : q + (u + 1) * 2 ^ b - 2 ^ (b + 1) = r + u * 2 ^ b := by
      have h1 : (u + 1) * 2 ^ b = u * 2 ^ b + 2 ^ b := Nat.succ_mul u (2 ^ b)
      have h2 : (2:Nat) ^ (b + 1) = 2 ^ b + 2 ^ b := by ring
      omega
    have hdiv : (r + u * 2 ^ b) / 2 ^ b = u := by
      rw [Nat.add_mul_div_right _ _ (pow_pos (by norm_num) b),
        Nat.div_eq_of_lt hr2, Nat.zero_add]
    have hmod : (q + (u + 1) * 2 ^ b) % 2 ^ b = r := by
      have h1 : q + (u + 1) * 2 ^ b = r + (u + 2) * 2 ^ b := by
        have h2 : (u + 2) * 2 ^ b = u * 2 ^ b + 2 ^ b + 2 ^ b := by ring
        have h3 : (u + 1) * 2 ^ b = u * 2 ^ b + 2 ^ b := Nat.succ_mul u (2 ^ b)
        omega
      rw [h1, Nat.add_mul_mod_self_right, Nat.mod_eq_of_lt hr2]
    have hcu : gadd (a + b + 1) ((q + (u + 1) * 2 ^ b - 2 ^ (b + 1)) / 2 ^ b) = s := by
      rw [hrw1, hdiv, gadd_eq (by omega)]
      omega
    have hglow : gshl 1 s = 2 ^ s := by
      rw [gshl_eq (by rw [one_mul]; exact two_pow_lt_U64 hs63), one_mul]
    have hrshift : gshl r (s - b) = r * 2 ^ (s - b) := by
      apply gshl_eq
      have h1 : r * 2 ^ (s - b) < 2 ^ b * 2 ^ (s - b) :=
        (Nat.mul_lt_mul_right (pow_pos (by norm_num) _)).mpr hr2
      rw [← hps] at h1
      have h2 : (2:Nat) ^ s < U64 := two_pow_lt_U64 hs63
      omega
    have hwidth : gshl 1 (gsub s b) = 2 ^ (s - b) := by
      rw [hsb, gshl_eq (by rw [one_mul]; exact two_pow_lt_U64 (by omega)), one_mul]
    have hlowU : 2 ^ s + r * 2 ^ (s - b) < U64 := by
      have h1 : r * 2 ^ (s - b) < 2 ^ b * 2 ^ (s - b) :=
        (Nat.mul_lt_mul_right (pow_pos (by norm_num) _)).mpr hr2
      rw [← hps] at h1
      have h2 : (2:Nat) ^ s ≤ 2 ^ 63 := Nat.pow_le_pow_right (by norm_num) hs63
      have h3 : (2:Nat) ^ 63 + 2 ^ 63 = 2 ^ 64 := by ring
      have h4 : U64 = 2 ^ 64 := rfl
      omega
    have hlower : 2 ^ s + r * 2 ^ (s - b) = q * 2 ^ (s - b) := by
      rw [hqr, Nat.add_mul, hps]
    simp only [Encoding.Decode64, hcadd, hbins]
    rw [if_neg (by omega)]
    rw [gsub_eq hidx_ge hidxU, gshr_eq, hcu]
    rw [show gsub (gshl 1 b) 1 = 2 ^ b - 1 by
      rw [gshl_eq (by rw [one_mul]; exact two_pow_lt_U64 (by omega)), one_mul,
        gsub_eq (Nat.one_le_two_pow) (two_pow_lt_U64 (by omega))]]
    rw [Nat.and_pow_two_sub_one_eq_mod, hmod, hglow, hwidth, hsb, hrshift,
      gadd_eq (by omega), hlower]

/-- C9: For the first Encoding implementation, any `uint64` value whose encoding
parameters satisfy `A + B + 1 ≤ 63` falls inside the bin returned by decoding
its encoded index: `lower ≤ value < lower + binWidth`. -/
theorem claim_C9_encode_decode_bin (e : Encoding) (v : Nat)
    (hc : e.A + e.B + 1 ≤ 63) (hv : v < 2 ^ 64) :
    (e.Decode64 (e.Encode64 v)).1 ≤ v ∧
      v < (e.Decode64 (e.Encode64 v)).1 + (e.Decode64 (e.Encode64 v)).2 := by
  obtain ⟨a, b⟩ := e
  obtain ⟨d, hd⟩ := decode64_encode64 a b v hc hv
  rw [hd]
  refine ⟨Nat.div_mul_le_self v _, ?_⟩
  show v < v / 2 ^ d * 2 ^ d + 2 ^ d
  have h1 := Nat.div_add_mod v (2 ^ d)
  have h2 : v % 2 ^ d < 2 ^ d := Nat.mod_lt _ (pow_pos (by norm_num) d)
  have h3 : 2 ^ d * (v / 2 ^ d) = v / 2 ^ d * 2 ^ d := Nat.mul_comm _ _
  omega

theorem claim_C9_witness :
    ((2:Nat) + 3 + 1 ≤ 63 ∧ (100000:Nat) < 2 ^ 64) ∧
    (Encoding.Decode64 ⟨2, 3⟩ (Encoding.Encode64 ⟨2, 3⟩ 100000)).1 ≤ 100000 ∧
      100000 < (Encoding.Decode64 ⟨2, 3⟩ (Encoding.Encode64 ⟨2, 3⟩ 100000)).1 +
        (Encoding.Decode64 ⟨2, 3⟩ (Encoding.Encode64 ⟨2, 3⟩ 100000)).2 :=
  ⟨⟨by norm_num, by norm_num⟩,
    claim_C9_encode_decode_bin ⟨2, 3⟩ 100000 (by norm_num) (by norm_num)⟩

/-- C10 counterexample: the two versions of the h2 codec are not extensionally
equal — with `A = 2, B = 3` the two `Encode64`s disagree at value 64 (16 vs 10)
and the two `Decode64`s disagree at index 0 (binWidth 4 vs 3). -/
theorem claim_C10_counterexample :
    Encoding.Encode64 ⟨2, 3⟩ 64 ≠ Encode64v2 ⟨2, 3⟩ 64 ∧
    Encoding.Decode64 ⟨2, 3⟩ 0 ≠ Decode64v2 ⟨2, 3⟩ 0 := by
  exact ⟨by decide, by decide⟩

/-- C10 amended: the two versions agree on `Encode64` for every value below the
linear-section cutoff `2^(A+B+1)` and on the `lower` component of `Decode64` at
every index; above the cutoff `Encode64` differs and the `binWidth` component of
`Decode64` differs, as the counterexample shows. -/
theorem claim_C10_codec_versions_agree_partially (e : Encoding) (v idx : Nat) :
    (v < gshl 1 (gadd (gadd e.A e.B) 1) →
      Encoding.Encode64 e v = Encode64v2 e v) ∧
    (Encoding.Decode64 e idx).1 = (Decode64v2 e idx).1 := by
  obtain ⟨a, b⟩ := e
  constructor
  · intro hlt
    simp only [Encoding.Encode64, Encode64v2]
    rw [if_pos hlt, if_pos hlt]
  · simp only [Encoding.Decode64, Decode64v2]
    by_cases hidx : idx < gshl 1 (gsub (gadd (gadd a b) 1) a)
    · rw [if_pos hidx, if_pos hidx]
    · rw [if_neg hidx, if_neg hidx]

theorem claim_C10_witness :
    ((5:Nat) < gshl 1 (gadd (gadd 2 3) 1) ∧
      Encoding.Encode64 ⟨2, 3⟩ 5 = Encode64v2 ⟨2, 3⟩ 5) ∧
    (Encoding.Decode64 ⟨2, 3⟩ 7).1 = (Decode64v2 ⟨2, 3⟩ 7).1 :=
  ⟨⟨by decide, (claim_C10_codec_versions_agree_partially ⟨2, 3⟩ 5 7).1 (by decide)⟩,
    (claim_C10_codec_versions_agree_partially ⟨2, 3⟩ 5 7).2⟩

/-! ## Tokenizer lemmas -/

theorem splitDots_ne_nil (cs : List Char) : splitDots cs ≠ [] := by
  induction cs with
  | nil => simp [splitDots]
  | cons c cs ih =>
    by_cases h : c = '.'
    · simp [splitDots, h]
    · simp only [splitDots, if_neg h]
      cases hs : splitDots cs with
      | nil => simp
      | cons t ts => simp

theorem joinDots_splitDots (cs : List Char) : joinDots (splitDots cs) = cs := by
  induction cs with
  | nil => rfl
  | cons c cs ih =>
    by_cases h : c = '.'
    · subst h
      simp only [splitDots, if_pos rfl]
      cases hs : splitDots cs with
      | nil => exact absurd hs (splitDots_ne_nil cs)
      | cons t2 ts2 =>
        rw [hs] at ih
        show '.' :: joinDots (t2 :: ts2) = '.' :: cs
        rw [ih]
    · simp only [splitDots, if_neg h]
      cases hs : splitDots cs with
      | nil => exact absurd hs (splitDots_ne_nil cs)
      | cons t2 ts2 =>
        rw [hs] at ih
        cases ts2 with
        | nil =>
          show c :: t2 = c :: cs
          rw [← ih]
          rfl
        | cons t3 ts3 =>
          show (c :: t2) ++ '.' :: joinDots (t3 :: ts3) = c :: cs
          rw [← ih]
          rfl

theorem not_dot_mem_splitDots (cs : List Char) :
    ∀ t ∈ splitDots cs, '.' ∉ t := by
  induction cs with
  | nil =>
    intro t ht
    simp [splitDots] at ht
    subst ht
    simp
  | cons c cs ih =>
    intro t ht
    by_cases h : c = '.'
    · subst h
      simp only [splitDots, if_pos rfl] at ht
      rcases List.mem_cons.mp ht with rfl | ht'
      · simp
      · exact ih t ht'
    · simp only [splitDots, if_neg h] at ht
      cases hs : splitDots cs with
      | nil => exact absurd hs (splitDots_ne_nil cs)
      | cons t2 ts2 =>
        rw [hs] at ht ih
        rcases List.mem_cons.mp ht with rfl | ht'
        · intro hc
          rcases List.mem_cons.mp hc with hc' | hc'
          · exact h hc'.symm
          · exact ih t2 (List.mem_cons_self _ _) hc'
        · exact ih t (List.mem_cons_of_mem _ ht')

theorem tokenize_ne_nil (s : String) : tokenize s ≠ [] := by
  intro h
  rw [tokenize, List.map_eq_nil_iff] at h
  exact splitDots_ne_nil _ h

theorem not_dot_mem_tokenize (s : String) : ∀ t ∈ tokenize s, '.' ∉ t.data := by
  intro t ht
  rw [tokenize, List.mem_map] at ht
  obtain ⟨l, hl, rfl⟩ := ht
  exact not_dot_mem_splitDots s.data l hl

theorem joinTokens_tokenize (s : String) : joinTokens (tokenize s) = s := by
  rw [joinTokens, tokenize, List.map_map]
  have hmap : (String.data ∘ fun l : List Char => String.mk l) = id :=
    funext fun l => rfl
  rw [hmap, List.map_id, joinDots_splitDots]

theorem validPubTokens_iff (ts : List String) :
    validPubTokens ts = true ↔
      ts ≠ [] ∧ ∀ t ∈ ts, t ≠ "" ∧ t ≠ "*" ∧ t ≠ ">" := by
  cases ts with
  | nil => simp [validPubTokens]
  | cons a as =>
    have heq : validPubTokens (a :: as)
        = ((a :: as).all fun t => !(t == "" || t == "*" || t == ">")) := rfl
    rw [heq, List.all_eq_true]
    constructor
    · intro h
      refine ⟨by simp, fun t ht => ?_⟩
      have := h t ht
      simp only [Bool.not_eq_true', Bool.or_eq_false_iff, beq_eq_false_iff_ne] at this
      exact ⟨this.1.1, this.1.2, this.2⟩
    · rintro ⟨-, h⟩ t ht
      obtain ⟨h1, h2, h3⟩ := h t ht
      simp [h1, h2, h3]

theorem validPatTokens_iff (ts : List String) :
    validPatTokens ts = true ↔
      ts ≠ [] ∧ (∀ t ∈ ts, t ≠ "") ∧
      ∀ i, ∀ h : i < ts.length, ts.get ⟨i, h⟩ = ">" → i + 1 = ts.length := by
  induction ts with
  | nil => simp [validPatTokens]
  | cons a as ih =>
    cases as with
    | nil =>
      have heq : validPatTokens [a] = !(a == "") := rfl
      rw [heq, Bool.not_eq_true', beq_eq_false_iff_ne]
      constructor
      · intro h
        refine ⟨by simp, ?_, ?_⟩
        · intro t ht
          rw [List.mem_singleton] at ht
          subst ht
          exact h
        · intro i hi _
          simp only [List.length_singleton] at hi ⊢
          omega
      · rintro ⟨-, h, -⟩
        exact h a (List.mem_singleton.mpr rfl)
    | cons b bs =>
      have heq : validPatTokens (a :: b :: bs)
          = (!(a == "" || a == ">") && validPatTokens (b :: bs)) := rfl
      rw [heq, Bool.and_eq_true, ih]
      constructor
      · rintro ⟨ha, -, hemp, hlast⟩
        simp only [Bool.not_eq_true', Bool.or_eq_false_iff, beq_eq_false_iff_ne] at ha
        refine ⟨by simp, ?_, ?_⟩
        · intro t ht
          rcases List.mem_cons.mp ht with rfl | ht'
          · exact ha.1
          · exact hemp t ht'
        · intro i hi hget
          cases i with
          | zero =>
            simp only [List.get] at hget
            exact absurd hget ha.2
          | succ j =>
            simp only [List.length_cons] at hi
            have hj : j < (b :: bs).length := by
              simp only [List.length_cons]
              omega
            have hget' : (b :: bs).get ⟨j, hj⟩ = ">" := by
              simpa [List.get] using hget
            have := hlast j hj hget'
            simp only [List.length_cons] at this ⊢
            omega
      · rintro ⟨-, hemp, hlast⟩
        have ha1 : a ≠ "" := hemp a (List.mem_cons_self _ _)
        have ha2 : a ≠ ">" := by
          intro hc
          have := hlast 0 (by simp) (by simpa [List.get] using hc)
          simp [List.length_cons] at this
        refine ⟨by simp [ha1, ha2], by simp, ?_, ?_⟩
        · intro t ht
          exact hemp t (List.mem_cons_of_mem _ ht)
        · intro i hi hget
          have hi' : i + 1 < (a :: b :: bs).length := by
            simp only [List.length_cons] at hi ⊢
            omega
          have hget' : (a :: b :: bs).get ⟨i + 1, hi'⟩ = ">" := by
            simpa [List.get] using hget
          have := hlast (i + 1) hi' hget'
          simp only [List.length_cons] at this ⊢
          omega

/-- C5: `tokenize` and the validity predicates reject with `MalformedSubject`
exactly the malformed inputs: a published subject fails exactly when it is empty,
has a zero-length token, or has a `*`/`>` token; a pattern additionally fails
exactly when `>` appears anywhere but last; every other input tokenizes to the
ordered sequence of dot-separated tokens (joining them with dots restores the
input and no token contains a dot). -/
theorem claim_C5_tokenize_validation (s : String) :
    (tokenizePub s = .error .malformedSubject ↔
      (s = "" ∨ (∃ t ∈ tokenize s, t = "") ∨
        (∃ t ∈ tokenize s, t = "*" ∨ t = ">"))) ∧
    (tokenizePattern s = .error .malformedSubject ↔
      (s = "" ∨ (∃ t ∈ tokenize s, t = "") ∨
        (∃ i, ∃ h : i < (tokenize s).length,
          (tokenize s).get ⟨i, h⟩ = ">" ∧ i + 1 ≠ (tokenize s).length))) ∧
    (∀ ts, tokenizePub s = .ok ts →
      ts = tokenize s ∧ joinTokens ts = s ∧ ∀ t ∈ ts, '.' ∉ t.data) := by
  refine ⟨?_, ?_, ?_⟩
  · rw [tokenizePub]
    by_cases hv : validPubTokens (tokenize s) = true
    · rw [if_pos hv]
      obtain ⟨-, hall⟩ := (validPubTokens_iff _).mp hv
      simp only [reduceCtorEq, false_iff]
      push_neg
      refine ⟨?_, fun t ht => (hall t ht).1, fun t ht => ⟨(hall t ht).2.1, (hall t ht).2.2⟩⟩
      intro hc
      subst hc
      exact (hall "" (by rw [show tokenize "" = [""] from rfl]; simp)).1 rfl
    · rw [if_neg hv]
      simp only [true_iff]
      rw [validPubTokens_iff] at hv
      push_neg at hv
      obtain ⟨t, ht, hbad⟩ := hv (tokenize_ne_nil s)
      by_cases h1 : t = ""
      · exact Or.inr (Or.inl ⟨t, ht, h1⟩)
      · by_cases h2 : t = "*"
        · exact Or.inr (Or.inr ⟨t, ht, Or.inl h2⟩)
        · exact Or.inr (Or.inr ⟨t, ht, Or.inr (hbad h1 h2)⟩)
  · rw [tokenizePattern]
    by_cases hv : validPatTokens (tokenize s) = true
    · rw [if_pos hv]
      obtain ⟨-, hemp, hlast⟩ := (validPatTokens_iff _).mp hv
      simp only [reduceCtorEq, false_iff]
      push_neg
      refine ⟨?_, fun t ht => hemp t ht, fun i h hget => ?_⟩
      · intro hc
        subst hc
        exact hemp "" (by rw [show tokenize "" = [""] from rfl]; simp) rfl
      · exact hlast i h hget
    · rw [if_neg hv]
      simp only [true_iff]
      rw [validPatTokens_iff] at hv
      have hne := tokenize_ne_nil s
      by_cases hemp : ∀ t ∈ tokenize s, t ≠ ""
      · have hnl : ¬ ∀ i, ∀ h : i < (tokenize s).length,
            (tokenize s).get ⟨i, h⟩ = ">" → i + 1 = (tokenize s).length := by
          intro hlast
          exact hv ⟨hne, hemp, hlast⟩
        push_neg at hnl
        obtain ⟨i, h, hget, hlen⟩ := hnl
        exact Or.inr (Or.inr ⟨i, h, hget, hlen⟩)
      · push_neg at hemp
        obtain ⟨t, ht, ht0⟩ := hemp
        exact Or.inr (Or.inl ⟨t, ht, ht0⟩)
  · intro ts hts
    rw [tokenizePub] at hts
    by_cases hv : validPubTokens (tokenize s) = true
    · rw [if_pos hv] at hts
      have : ts = tokenize s := by
        injection hts with h
        exact h.symm
      subst this
      exact ⟨rfl, joinTokens_tokenize s, not_dot_mem_tokenize s⟩
    · rw [if_neg hv] at hts
      exact Except.noConfusion hts

theorem claim_C5_witness :
    tokenizePub "a.b" = .ok ["a", "b"] ∧
    (["a", "b"] = tokenize "a.b" ∧ joinTokens ["a", "b"] = "a.b" ∧
      ∀ t ∈ (["a", "b"] : List String), '.' ∉ t.data) :=
  ⟨rfl, (claim_C5_tokenize_validation "a.b").2.2 ["a", "b"] rfl⟩

/-! ## Cache lemmas -/

theorem slInsert_ok_cache {s : Subscription} {sl sl' : Sublist}
    (h : slInsert s sl = .ok sl') : sl'.cache = [] := by
  rw [slInsert] at h
  cases ht : tokenizePattern s.subject with
  | error e =>
    simp only [ht] at h
    exact Except.noConfusion h
  | ok toks =>
    simp only [ht, Except.ok.injEq] at h
    rw [← h]

theorem slRemove_ok_cache {s : Subscription} {sl sl' : Sublist}
    (h : slRemove s sl = .ok sl') : sl'.cache = [] := by
  rw [slRemove] at h
  cases ht : tokenizePattern s.subject with
  | error e =>
    simp only [ht] at h
    exact Except.noConfusion h
  | ok toks =>
    simp only [ht] at h
    cases hr : removeAt toks s sl.root with
    | none =>
      simp only [hr] at h
      exact Except.noConfusion h
    | some root' =>
      simp only [hr, Except.ok.injEq] at h
      rw [← h]

theorem cacheWF_applyOp {sl : Sublist} (h : cacheWF sl) (op : SlOp) :
    cacheWF (applyOp sl op) := by
  cases op with
  | ins s =>
    simp only [applyOp]
    cases hi : slInsert s sl with
    | ok sl' =>
      intro e he
      rw [slInsert_ok_cache hi] at he
      cases he
    | error e => exact h
  | rem s =>
    simp only [applyOp]
    cases hi : slRemove s sl with
    | ok sl' =>
      intro e he
      rw [slRemove_ok_cache hi] at he
      cases he
    | error e => exact h
  | mat subj =>
    simp only [applyOp, slMatch]
    by_cases hv : isValidPublishSubject subj = true
    · rw [if_pos hv]
      cases hc : assocLookup subj sl.cache with
      | some r => exact h
      | none =>
        intro e he
        show e.2 = matchAt (tokenize e.1) sl.root
        have he1 : e ∈ sl.cache ++ [(subj, matchAt (tokenize subj) sl.root)] := by
          revert he
          by_cases hbig : slCacheMax <
              (sl.cache ++ [(subj, matchAt (tokenize subj) sl.root)]).length
          · rw [if_pos hbig]
            intro he
            exact List.take_subset _ _ he
          · rw [if_neg hbig]
            intro he
            exact he
        rcases List.mem_append.mp he1 with h1 | h1
        · exact h e h1
        · rw [List.mem_singleton] at h1
          subst h1
          rfl
    · rw [if_neg hv]
      exact h

theorem cacheWF_applyOps (ops : List SlOp) : cacheWF (applyOps ops) := by
  rw [applyOps]
  have hstep : ∀ (l : List SlOp) (sl : Sublist), cacheWF sl →
      cacheWF (l.foldl applyOp sl) := by
    intro l
    induction l with
    | nil => intro sl h; exact h
    | cons op l ih =>
      intro sl h
      exact ih (applyOp sl op) (cacheWF_applyOp h op)
  refine hstep _ newSublistWithCache ?_
  intro e he
  cases he

/-- C2: Match with the result cache is observationally equivalent to Match
without it: on every reachable sublist state, `Match(S)` returns the identical
logical result whether the current cache is consulted or replaced by an empty
one; a cache hit returns the stored result, which the coherence invariant shows
equals the freshly computed traversal result. -/
theorem claim_C2_cache_transparency (ops : List SlOp) (S : String) :
    (slMatch S (applyOps ops)).1 =
      (slMatch S ⟨(applyOps ops).root, [], (applyOps ops).genid⟩).1 := by
  have hwf := cacheWF_applyOps ops
  by_cases hv : isValidPublishSubject S = true
  · simp only [slMatch, if_pos hv]
    cases hc : assocLookup S (applyOps ops).cache with
    | none => simp [hc, assocLookup]
    | some r =>
      simp only [hc, assocLookup]
      exact hwf (S, r) (assocLookup_some_mem hc)
  · simp [slMatch, hv]

/-- C6: After any sequence of operations the cache never holds more than
`slCacheMax` (1024) entries, and a Match that would push the count past the
high-water mark prunes the cache to exactly `slCacheSweep` (256) entries. -/
theorem claim_C6_cache_bound :
    (∀ ops : List SlOp, (applyOps ops).cache.length ≤ slCacheMax) ∧
    (∀ (sl : Sublist) (S : String), isValidPublishSubject S = true →
      assocLookup S sl.cache = none →
      ((slMatch S sl).2).cache.length =
        if slCacheMax < sl.cache.length + 1 then slCacheSweep
        else sl.cache.length + 1) := by
  constructor
  · have hstep : ∀ (l : List SlOp) (sl : Sublist), sl.cache.length ≤ slCacheMax →
        (l.foldl applyOp sl).cache.length ≤ slCacheMax := by
      intro l
      induction l with
      | nil => intro sl h; exact h
      | cons op l ih =>
        intro sl h
        refine ih (applyOp sl op) ?_
        cases op with
        | ins s =>
          simp only [applyOp]
          cases hi : slInsert s sl with
          | ok sl' =>
            rw [slInsert_ok_cache hi]
            simp [slCacheMax]
          | error e => exact h
        | rem s =>
          simp only [applyOp]
          cases hi : slRemove s sl with
          | ok sl' =>
            rw [slRemove_ok_cache hi]
            simp [slCacheMax]
          | error e => exact h
        | mat subj =>
          simp only [applyOp, slMatch]
          by_cases hv : isValidPublishSubject subj = true
          · rw [if_pos hv]
            cases hc : assocLookup subj sl.cache with
            | some r => exact h
            | none =>
              show (if slCacheMax <
                  (sl.cache ++ [(subj, matchAt (tokenize subj) sl.root)]).length
                then (sl.cache ++
                  [(subj, matchAt (tokenize subj) sl.root)]).take slCacheSweep
                else sl.cache ++
                  [(subj, matchAt (tokenize subj) sl.root)]).length ≤ slCacheMax
              by_cases hbig : slCacheMax <
                  (sl.cache ++ [(subj, matchAt (tokenize subj) sl.root)]).length
              · rw [if_pos hbig]
                rw [List.length_take]
                have h1 : slCacheMax = 1024 := rfl
                have h2 : slCacheSweep = 256 := rfl
                omega
              · rw [if_neg hbig]
                omega
          · rw [if_neg hv]
            exact h
    intro ops
    rw [applyOps]
    exact hstep _ newSublistWithCache (by simp [newSublistWithCache, slCacheMax])
  · intro sl S hv hc
    simp only [slMatch, if_pos hv, hc]
    simp only [List.length_append, List.length_singleton]
    by_cases hbig : slCacheMax < sl.cache.length + 1
    · rw [if_pos hbig, if_pos hbig, List.length_take]
      have h1 : slCacheMax = 1024 := rfl
      have h2 : slCacheSweep = 256 := rfl
      simp only [List.length_append, List.length_singleton]
      omega
    · rw [if_neg hbig, if_neg hbig]
      simp

theorem claim_C6_witness :
    isValidPublishSubject "a" = true ∧
    assocLookup "a" newSublistWithCache.cache = none ∧
    ((slMatch "a" newSublistWithCache).2).cache.length =
      (if slCacheMax < newSublistWithCache.cache.length + 1 then slCacheSweep
       else newSublistWithCache.cache.length + 1) :=
  ⟨rfl, rfl, claim_C6_cache_bound.2 newSublistWithCache "a" rfl rfl⟩

/-- C1: A no-queue subscription inserted into the trie is contained in
`Match(S)` for a valid published subject S exactly when its pattern matches S
declaratively — token-for-token equality, with `*` standing for exactly one
token, or a trailing `>` after a matching prefix with at least one token left.
Moreover the spec's concrete example holds: after inserting A, B, C, D,
`Match("sensors.temperature.room1")` returns exactly the plain matches
{A, B, C} and no queue groups, `Match("tensors.room1")` returns {D}, and
`Match("other.x")` is empty. -/
theorem claim_C1_match_semantics :
    (∀ (S : String) (sub : Subscription),
      isValidPublishSubject S = true → sub.queue = none →
      ((sub ∈ (matchAt (tokenize S)
          (insertAt (tokenize sub.subject) sub emptyNode)).psubs) ↔
        specMatch (tokenize sub.subject) (tokenize S) = true)) ∧
    (slMatch "sensors.temperature.room1" exSublist).1.psubs.Perm
      [exSubA, exSubB, exSubC] ∧
    (slMatch "sensors.temperature.room1" exSublist).1.qsubs = [] ∧
    (slMatch "tensors.room1" exSublist).1 = ⟨[exSubD], []⟩ ∧
    (slMatch "other.x" exSublist).1 = emptyResult := by
  refine ⟨?_, by decide, rfl, rfl, rfl⟩
  intro S sub hS hq
  exact mem_matchAt_insert_iff (tokenize S) (tokenize sub.subject) sub
    (validPubTokens_no_wildcards hS) hq

theorem claim_C1_witness :
    isValidPublishSubject "sensors.temperature.room1" = true ∧
    exSubC.queue = none ∧
    ((exSubC ∈ (matchAt (tokenize "sensors.temperature.room1")
        (insertAt (tokenize exSubC.subject) exSubC emptyNode)).psubs) ↔
      specMatch (tokenize exSubC.subject)
        (tokenize "sensors.temperature.room1") = true) :=
  ⟨rfl, rfl,
    claim_C1_match_semantics.1 "sensors.temperature.room1" exSubC rfl rfl⟩

/-! ## Pub dispatch lemmas -/

theorem pubTrace_spec (mr : SublistResult) (choices : List Nat)
    (hlen : choices.length = mr.qsubs.length)
    (hval : ∀ i, i < mr.qsubs.length →
      choices.getD i 0 < (mr.qsubs.getD i ("", [])).2.length) :
    (pubTrace mr choices).length = mr.psubs.length + mr.qsubs.length ∧
    (∀ i, i < mr.psubs.length →
      (pubTrace mr choices).getD i dummySub = mr.psubs.getD i dummySub) ∧
    (∀ i, i < mr.qsubs.length →
      (pubTrace mr choices).getD (mr.psubs.length + i) dummySub ∈
        (mr.qsubs.getD i ("", [])).2) ∧
    (∀ x ∈ pubTrace mr choices,
      x ∈ mr.psubs ∨ ∃ g ∈ mr.qsubs, x ∈ g.2) := by
  have hzlen : (List.zipWith pickQ mr.qsubs choices).length = mr.qsubs.length := by
    rw [List.length_zipWith, hlen]
    omega
  have hz : ∀ i, i < mr.qsubs.length →
      (List.zipWith pickQ mr.qsubs choices).getD i dummySub ∈
        (mr.qsubs.getD i ("", [])).2 := by
    intro i hi
    have hic : i < choices.length := by omega
    have hiz : i < (List.zipWith pickQ mr.qsubs choices).length := by omega
    rw [List.getD_eq_getElem _ _ hiz, List.getElem_zipWith,
      List.getD_eq_getElem _ _ hi]
    have hci : choices.getD i 0 = choices[i] := List.getD_eq_getElem _ _ hic
    have hvi := hval i hi
    rw [hci, List.getD_eq_getElem _ _ hi] at hvi
    show (mr.qsubs[i].2).getD choices[i] dummySub ∈ mr.qsubs[i].2
    rw [List.getD_eq_getElem _ _ hvi]
    exact List.getElem_mem hvi
  refine ⟨?_, ?_, ?_, ?_⟩
  · rw [pubTrace, List.length_append, hzlen]
  · intro i hi
    rw [pubTrace, List.getD_append _ _ _ _ hi]
  · intro i hi
    rw [pubTrace, List.getD_append_right _ _ _ _ (by omega)]
    have : mr.psubs.length + i - mr.psubs.length = i := by omega
    rw [this]
    exact hz i hi
  · intro x hx
    rw [pubTrace] at hx
    rcases List.mem_append.mp hx with h1 | h1
    · exact Or.inl h1
    · obtain ⟨j, hj, hjx⟩ := List.mem_iff_getElem.mp h1
      have hjq : j < mr.qsubs.length := by omega
      right
      refine ⟨mr.qsubs[j], List.getElem_mem hjq, ?_⟩
      have := hz j hjq
      rw [List.getD_eq_getElem _ _ hj, hjx, List.getD_eq_getElem _ _ hjq] at this
      exact this

/-- C7: The `Pub` dispatch loop invokes every plain subscription of the match
result exactly once, in order, then exactly one member per queue group — the
member at the index drawn from the random oracle (`rand.IntN` in the source) —
and never invokes any subscription outside the match result.  Each invocation is
passed the published subject and message verbatim by `pub`. -/
theorem claim_C7_pub_dispatch (sl : Sublist) (subject : String)
    (choices : List Nat)
    (hlen : choices.length = (slMatch subject sl).1.qsubs.length)
    (hval : ∀ i, i < (slMatch subject sl).1.qsubs.length →
      choices.getD i 0 < ((slMatch subject sl).1.qsubs.getD i ("", [])).2.length) :
    (pubTrace (slMatch subject sl).1 choices).length =
      (slMatch subject sl).1.psubs.length + (slMatch subject sl).1.qsubs.length ∧
    (∀ i, i < (slMatch subject sl).1.psubs.length →
      (pubTrace (slMatch subject sl).1 choices).getD i dummySub =
        (slMatch subject sl).1.psubs.getD i dummySub) ∧
    (∀ i, i < (slMatch subject sl).1.qsubs.length →
      (pubTrace (slMatch subject sl).1 choices).getD
          ((slMatch subject sl).1.psubs.length + i) dummySub ∈
        ((slMatch subject sl).1.qsubs.getD i ("", [])).2) ∧
    (∀ x ∈ pubTrace (slMatch subject sl).1 choices,
      x ∈ (slMatch subject sl).1.psubs ∨
        ∃ g ∈ (slMatch subject sl).1.qsubs, x ∈ g.2) :=
  pubTrace_spec (slMatch subject sl).1 choices hlen hval

theorem claim_C7_witness :
    (pubTrace (slMatch "work.task.1" exQSublist).1 [1]).length =
      (slMatch "work.task.1" exQSublist).1.psubs.length +
        (slMatch "work.task.1" exQSublist).1.qsubs.length ∧
    ∀ x ∈ pubTrace (slMatch "work.task.1" exQSublist).1 [1],
      x ∈ (slMatch "work.task.1" exQSublist).1.psubs ∨
        ∃ g ∈ (slMatch "work.task.1" exQSublist).1.qsubs, x ∈ g.2 := by
  have h := claim_C7_pub_dispatch exQSublist "work.task.1" [1] rfl ?_
  · exact ⟨h.1, h.2.2.2⟩
  · intro i hi
    have h1 : (slMatch "work.task.1" exQSublist).1.qsubs.length = 1 := rfl
    rw [h1] at hi
    have h0 : i = 0 := by omega
    subst h0
    decide

/-! ## Claim theorems: Remove / cancel behaviour -/

/-- C3: For every `Remove(s)` call on a validly-patterned subscription where no
subscription with equal pattern, queue, and payload is registered in the trie,
`Remove` fails with `NotFound` (and, the model being functional, the trie the
caller holds is exactly unchanged). -/
theorem claim_C3_remove_unregistered_notFound (sl : Sublist) (s : Subscription)
    (hv : validPatTokens (tokenize s.subject) = true)
    (h0 : countSub s sl = 0) :
    slRemove s sl = .error .notFound := by
  simp only [countSub] at h0
  simp only [slRemove, tokenizePattern, hv, if_true]
  rw [removeAt_none_of_countAt_zero _ s sl.root h0]

theorem claim_C3_witness :
    validPatTokens (tokenize exSubA.subject) = true ∧
    countSub exSubA newSublistWithCache = 0 ∧
    slRemove exSubA newSublistWithCache = .error .notFound :=
  ⟨rfl, rfl, claim_C3_remove_unregistered_notFound newSublistWithCache exSubA rfl rfl⟩

/-- C4: On every well-formed trie, `Insert(s)` followed by `Remove(s)` succeeds
and yields a trie with exactly the same node set (literal, `*` and `>`-terminal
positions) as before the Insert: Remove's pruning undoes every node the Insert
created. -/
theorem claim_C4_insert_remove_node_set (sl sl1 : Sublist) (s : Subscription)
    (hwf : trieWF sl.root) (h : slInsert s sl = .ok sl1) :
    ∃ sl2, slRemove s sl1 = .ok sl2 ∧
      ∀ addr, hasNode sl2.root addr = hasNode sl.root addr := by
  by_cases hv : validPatTokens (tokenize s.subject) = true
  · simp only [slInsert, tokenizePattern, hv, if_true, Except.ok.injEq] at h
    subst h
    obtain ⟨t', hrm, hhn, hne⟩ :=
      removeAt_insertAt_hasNode (tokenize s.subject) s sl.root hwf
    refine ⟨⟨t', [], sl.genid + 1 + 1⟩, ?_, ?_⟩
    · simp only [slRemove, tokenizePattern, hv, if_true, hrm]
    · intro addr
      exact hhn addr
  · simp only [slInsert, tokenizePattern] at h
    rw [if_neg hv] at h
    exact Except.noConfusion h

theorem claim_C4_witness :
    trieWF newSublistWithCache.root ∧
    ∃ sl1, slInsert exSubA newSublistWithCache = .ok sl1 ∧
      ∃ sl2, slRemove exSubA sl1 = .ok sl2 ∧
        ∀ addr, hasNode sl2.root addr = hasNode newSublistWithCache.root addr :=
  ⟨trieWF_empty, _, rfl,
    claim_C4_insert_remove_node_set newSublistWithCache _ exSubA trieWF_empty rfl⟩

/-- C8: The cancel function returned by subscribing is idempotent: on a trie with
well-formed maps where the subscription is not yet registered, after `Insert` the
first cancel call removes the subscription and returns normally, and every
subsequent call receives `ErrNotFound` from `Remove`, ignores it, and returns
normally leaving the state exactly unchanged. -/
theorem claim_C8_cancel_idempotent (sl sl1 : Sublist) (s : Subscription)
    (hnd : mapsNodup sl.root)
    (h1 : slInsert s sl = .ok sl1) (h0 : countSub s sl = 0) :
    ∃ sl2, cancelRun s sl1 = (sl2, false) ∧ countSub s sl2 = 0 ∧
      slRemove s sl2 = .error .notFound ∧ cancelRun s sl2 = (sl2, false) := by
  by_cases hv : validPatTokens (tokenize s.subject) = true
  · simp only [slInsert, tokenizePattern, hv, if_true, Except.ok.injEq] at h1
    subst h1
    obtain ⟨t', hrm, hcnt⟩ := removeAt_insertAt_count (tokenize s.subject) s sl.root hnd
    simp only [countSub] at h0
    have hcnt0 : countAt (tokenize s.subject) s t' = 0 := by
      rw [hcnt]
      exact h0
    have hok : slRemove s ⟨insertAt (tokenize s.subject) s sl.root, [], sl.genid + 1⟩
        = .ok ⟨t', [], sl.genid + 1 + 1⟩ := by
      simp only [slRemove, tokenizePattern, hv, if_true, hrm]
    have hnf2 : slRemove s (⟨t', [], sl.genid + 1 + 1⟩ : Sublist) = .error .notFound := by
      simp only [slRemove, tokenizePattern, hv, if_true]
      rw [removeAt_none_of_countAt_zero _ s t' hcnt0]
    refine ⟨⟨t', [], sl.genid + 1 + 1⟩, ?_, ?_, hnf2, ?_⟩
    · simp [cancelRun, hok]
    · simpa [countSub] using hcnt0
    · simp [cancelRun, hnf2]
  · simp only [slInsert, tokenizePattern] at h1
    rw [if_neg hv] at h1
    exact Except.noConfusion h1

theorem claim_C8_witness :
    mapsNodup newSublistWithCache.root ∧
    countSub exSubQA newSublistWithCache = 0 ∧
    ∃ sl1, slInsert exSubQA newSublistWithCache = .ok sl1 ∧
      ∃ sl2, cancelRun exSubQA sl1 = (sl2, false) ∧ countSub exSubQA sl2 = 0 ∧
        slRemove exSubQA sl2 = .error .notFound ∧
        cancelRun exSubQA sl2 = (sl2, false) :=
  ⟨mapsNodup_empty, rfl, _, rfl,
    claim_C8_cancel_idempotent newSublistWithCache _ exSubQA mapsNodup_empty rfl rfl⟩

end Toolkit
